import Mathlib

/-!
Verification of the fdeflate streaming DEFLATE decompressor specification.

The repository provides `src/decompress/tests/test_utils.rs` (the chunked
test driver `decompress_impl`) and two fuzz targets; the decompression
engine itself is described by the specification (sections 2-7 of the design
document).  Accordingly:

* the test driver `decompress_impl` is embedded directly from the source,
  parameterised over an arbitrary decompressor behaviour (state type,
  `is_done`, `ignore_adler32`, `read`);
* the decompression engine (bit reader, Huffman tables, state machine,
  back-reference replay, checksum adapter) is modelled from the spec.

Machine integers are modelled as `Nat`; byte buffers as `List Nat`; the
fixed one-million-byte output buffer of the driver as a function
`Nat → Nat` together with its length.
-/

/-- The closed error taxonomy of the decompression engine (spec section 7). -/
inductive DecompressionError where
  | MalformedHeader
  | MalformedHuffmanTable
  | MalformedStoredLength
  | InvalidSymbol
  | InvalidDistance
  | TruncatedInput
  | ChecksumMismatch
deriving DecidableEq

/-- Test-only error kinds of `test_utils.rs`. -/
inductive TestErrorKind where
  | OutputTooLarge
  | TooManyIterations
deriving DecidableEq

/-- `TestDecompressionError` from `test_utils.rs`: either a production error
or a test-harness error. -/
inductive TestDecompressionError where
  | ProdError (e : DecompressionError)
  | TestError (k : TestErrorKind)
deriving DecidableEq

/-- An arbitrary decompressor behaviour, as seen by the test driver
`decompress_impl`: a state type with `is_done`, `ignore_adler32` and a
`read` operation taking (input slice, output buffer, output offset,
end-of-input flag) and returning the new state, the number of input bytes
consumed, the number of output bytes written, and the new output buffer. -/
structure AbsDecompressor (S : Type) where
  isDone : S → Bool
  ignoreAdler32 : S → S
  read : S → List Nat → (Nat → Nat) → Nat → Bool →
    Except DecompressionError (S × Nat × Nat × (Nat → Nat))

/-- Length of the driver's fixed output buffer (`vec![0; 1_000_000]`). -/
def outBufLen : Nat := 1000000

/-- The slice `input[start..stop]` (with saturating behaviour; the driver
only forms in-range slices). -/
def sliceOf (input : List Nat) (start stop : Nat) : List Nat :=
  (input.drop start).take (stop - start)

/-- `out_buf.resize(out_pos, 0xFF)` followed by returning the vector:
the first `outPos` bytes, taking existing contents below the buffer length
and the pad byte above it. -/
def resizeOut (buf : Nat → Nat) (outPos : Nat) : List Nat :=
  (List.range outPos).map (fun i => if i < outBufLen then buf i else 0xFF)

/-- One `Decompressor::read` call made by the driver, as observed from
outside: the slice bounds `start`/`stop`, the `end_of_input` flag, the
consumed/written counts it returned, the output position after the call and
whether the decompressor reported `is_done` afterwards.  For a call that
returned an error, the last four fields are recorded as zero/stale. -/
structure CallRecord where
  start : Nat
  stop : Nat
  eof : Bool
  consumed : Nat
  written : Nat
  outPosAfter : Nat
  doneAfter : Bool
deriving DecidableEq

/-- Result of running the driver: the returned value, the final
decompressor state, the final output position, and the trace of `read`
calls made. -/
structure DriveResult (S : Type) where
  res : Except TestDecompressionError (List Nat)
  finalState : S
  finalOutPos : Nat
  trace : List CallRecord

/-- Outcome of one loop iteration of `decompress_impl`: either an early
return with an error, or continuation with updated positions. -/
inductive IterOut (S : Type) where
  | err (e : TestDecompressionError) (s : S) (newOutPos : Nat) (entry : CallRecord)
  | cont (s : S) (inPos outPos : Nat) (buf : Nat → Nat) (entry : CallRecord)

/-- The record of the `read` call an iteration made. -/
def IterOut.entryOf {S : Type} : IterOut S → CallRecord
  | .err _ _ _ entry => entry
  | .cont _ _ _ _ entry => entry

/-- `end = std::cmp::min(start + chunk_size, input.len())` of the driver
loop, with the chunk size defaulting to 0 on an exhausted iterator. -/
def chunkStop (input : List Nat) (chunks : Nat → Option Nat) (idx inPos : Nat) : Nat :=
  min (inPos + (chunks idx).getD 0) input.length

/-- The `end_of_input` flag the driver passes to `read`: with `early_eof`
it is set as soon as the chunk's end reaches the end of the input,
otherwise only once the whole input was consumed before the call. -/
def eofFlag (earlyEof : Bool) (start stop len : Nat) : Bool :=
  if earlyEof then stop == len else start == len

/-- One iteration of the `decompress_impl` loop (test_utils.rs lines
99-116): take the next chunk size (defaulting to 0 when the iterator is
exhausted), slice the input, compute the `end_of_input` flag, call `read`,
advance the positions and apply the output-too-large check. -/
def driveIter {S : Type} (d : AbsDecompressor S) (input : List Nat)
    (chunks : Nat → Option Nat) (earlyEof : Bool)
    (idx : Nat) (s : S) (inPos outPos : Nat) (buf : Nat → Nat) : IterOut S :=
  match d.read s (sliceOf input inPos (chunkStop input chunks idx inPos)) buf outPos
      (eofFlag earlyEof inPos (chunkStop input chunks idx inPos) input.length) with
  | .error e =>
      .err (.ProdError e) s outPos
        ⟨inPos, chunkStop input chunks idx inPos,
          eofFlag earlyEof inPos (chunkStop input chunks idx inPos) input.length,
          0, 0, outPos, d.isDone s⟩
  | .ok (s', c, w, buf') =>
      if outPos + w == outBufLen && c == 0 && !(d.isDone s') then
        .err (.TestError .OutputTooLarge) s' (outPos + w)
          ⟨inPos, chunkStop input chunks idx inPos,
            eofFlag earlyEof inPos (chunkStop input chunks idx inPos) input.length,
            c, w, outPos + w, d.isDone s'⟩
      else
        .cont s' (inPos + c) (outPos + w) buf'
          ⟨inPos, chunkStop input chunks idx inPos,
            eofFlag earlyEof inPos (chunkStop input chunks idx inPos) input.length,
            c, w, outPos + w, d.isDone s'⟩

/-- The loop of `decompress_impl` (test_utils.rs lines 93-117).  `left` is
the number of loop iterations still allowed before the 5000-iteration
guard fires; `idx` is the index of the next `chunks.next()` call
(`chunks idx = none` models an exhausted iterator, whose chunk size
defaults to 0 via `unwrap_or(0)`). -/
def driveGo {S : Type} (d : AbsDecompressor S) (input : List Nat)
    (chunks : Nat → Option Nat) (earlyEof : Bool) :
    Nat → Nat → S → Nat → Nat → (Nat → Nat) → DriveResult S
  | left, idx, s, inPos, outPos, buf =>
    if d.isDone s then
      ⟨Except.ok (resizeOut buf outPos), s, outPos, []⟩
    else
      match left with
      | 0 => ⟨Except.error (.TestError .TooManyIterations), s, outPos, []⟩
      | left' + 1 =>
        match driveIter d input chunks earlyEof idx s inPos outPos buf with
        | .err e s' op entry => ⟨Except.error e, s', op, [entry]⟩
        | .cont s' ip op buf' entry =>
            let r := driveGo d input chunks earlyEof left' (idx + 1) s' ip op buf'
            ⟨r.res, r.finalState, r.finalOutPos, entry :: r.trace⟩

/-- `decompress_impl` from `test_utils.rs`, over an arbitrary decompressor
behaviour: calls `ignore_adler32`, then runs the loop with the fixed
1,000,000-byte zeroed output buffer and the 5000-iteration guard. -/
def decompressImplA {S : Type} (d : AbsDecompressor S) (s0 : S) (input : List Nat)
    (chunks : Nat → Option Nat) (earlyEof : Bool) : DriveResult S :=
  driveGo d input chunks earlyEof 5000 0 (d.ignoreAdler32 s0) 0 0 (fun _ => 0)

/-- A decompressor behaviour that never makes progress and never finishes:
exercises the driver's iteration guard. -/
def stuckBehaviour : AbsDecompressor Unit :=
  ⟨fun _ => false, fun s => s, fun s _ buf _ _ => Except.ok (s, 0, 0, buf)⟩

/-- A decompressor behaviour that reports done after one read call, without
consuming or producing anything. -/
def oneCallBehaviour : AbsDecompressor Nat :=
  ⟨fun s => decide (1 ≤ s), fun s => s, fun s _ buf _ _ => Except.ok (s + 1, 0, 0, buf)⟩

/-- A behaviour that fills the whole 1,000,000-byte buffer in a single call
while consuming nothing: triggers the output-too-large guard. -/
def floodBehaviour : AbsDecompressor Unit :=
  ⟨fun _ => false, fun s => s, fun s _ buf _ _ => Except.ok (s, 0, outBufLen, buf)⟩

/-- A behaviour that is done from the start. -/
def doneBehaviour : AbsDecompressor Unit :=
  ⟨fun _ => true, fun s => s, fun s _ buf _ _ => Except.ok (s, 0, 0, buf)⟩


/-! ### The decompression engine, modelled from the spec

The engine itself is not part of the provided sources, so it is modelled
from the specification: a resumable state machine over a bit stream
(section 4.3), canonical Huffman decoding with a size-parameterised
primary decode table (section 4.2), LZ77 back-reference replay against the
whole emitted history (section 4.3 BackReference), and an optional adler32
checksum adapter (section 4.4). -/

/-- Modelled from the spec: the adler32 modulus of the checksum adapter. -/
def adlerMod : Nat := 65521

/-- Modelled from the spec: fold one output byte into the running adler32
state `(s1, s2)`. -/
def adlerStep (a : Nat × Nat) (b : Nat) : Nat × Nat :=
  ((a.1 + b) % adlerMod, (a.2 + (a.1 + b) % adlerMod) % adlerMod)

/-- Fold a run of output bytes (in emission order) into the checksum. -/
def adlerFold (a : Nat × Nat) (bytes : List Nat) : Nat × Nat :=
  bytes.foldl adlerStep a

/-- The 32-bit value of an adler32 state. -/
def adlerValue (a : Nat × Nat) : Nat := a.2 * 65536 + a.1

/-- Modelled from the spec (bit reader, section 4.1): the 8 bits of a
byte, least-significant first, as they enter the DEFLATE bit stream. -/
def byteBits (b : Nat) : List Bool :=
  [b.testBit 0, b.testBit 1, b.testBit 2, b.testBit 3,
   b.testBit 4, b.testBit 5, b.testBit 6, b.testBit 7]

/-- Value of a bit list read least-significant-bit first. -/
def bitsVal : List Bool → Nat
  | [] => 0
  | b :: rest => (if b then 1 else 0) + 2 * bitsVal rest

/-- Modelled from the spec (section 4.2): number of symbols whose code
length is `l` (lengths 0 mean the symbol is unused and never count). -/
def lenCount (lens : List Nat) (l : Nat) : Nat :=
  if l = 0 then 0 else (lens.filter (fun x => x == l)).length

/-- Modelled from the spec (section 4.2): the first canonical code of each
length (the `next_code` recurrence of the canonical construction). -/
def firstCode (lens : List Nat) : Nat → Nat
  | 0 => 0
  | l + 1 => (firstCode lens l + lenCount lens l) * 2

/-- Rank of `sym` among symbols of its own code length (canonical order
assigns codes of one length in increasing symbol order). -/
def lenRank (lens : List Nat) (sym : Nat) : Nat :=
  ((List.range sym).filter (fun s => lens.getD s 0 == lens.getD sym 0)).length

/-- The canonical code assigned to `sym` (meaningful when `sym` is used). -/
def canonCode (lens : List Nat) (sym : Nat) : Nat :=
  firstCode lens (lens.getD sym 0) + lenRank lens sym

/-- The stream bits of the code of `sym`: a Huffman code is packed into
the stream starting from its most significant bit. -/
def codeBits (lens : List Nat) (sym : Nat) : List Bool :=
  (List.range (lens.getD sym 0)).map
    (fun j => (canonCode lens sym).testBit (lens.getD sym 0 - 1 - j))

/-- Does the stream `bits` begin with the code of `sym`? -/
def symMatches (lens : List Nat) (bits : List Bool) (sym : Nat) : Bool :=
  decide (0 < lens.getD sym 0) && decide (lens.getD sym 0 ≤ bits.length) &&
    decide (bits.take (lens.getD sym 0) = codeBits lens sym)

/-- The used symbols in canonical order: increasing code length, then
increasing symbol value. -/
def canonOrder (lens : List Nat) : List Nat :=
  (List.range 16).flatMap (fun l =>
    if l = 0 then [] else (List.range lens.length).filter (fun s => lens.getD s 0 == l))

/-- Result of decoding one symbol: a symbol together with the number of
stream bits its code occupies, or `short` (more input needed), or `bad`
(no code matches: invalid symbol). -/
inductive DecodeRes where
  | found (sym len : Nat)
  | short
  | bad
deriving DecidableEq

/-- Modelled from the spec: decode one symbol from the stream against the
canonical code described by `lens`: the first used symbol (in canonical
order) whose code is a prefix of the stream; `short` when no code matches
but some code extends the available bits; `bad` otherwise. -/
def decodeSym (lens : List Nat) (bits : List Bool) : DecodeRes :=
  match (canonOrder lens).find? (fun sym => symMatches lens bits sym) with
  | some sym => .found sym (lens.getD sym 0)
  | none =>
      if (canonOrder lens).any (fun sym =>
          decide (bits.length < lens.getD sym 0) &&
            decide ((codeBits lens sym).take bits.length = bits)) then
        .short
      else .bad

/-- Kraft sum of a length assignment, scaled by `2 ^ 15`. -/
def kraftSum (lens : List Nat) : Nat :=
  (lens.map (fun l => if l = 0 then 0 else 2 ^ (15 - l))).sum

/-- Number of used symbols of a length assignment. -/
def usedSyms (lens : List Nat) : Nat := (lens.filter (fun l => l != 0)).length

/-- Modelled from the spec (section 4.2): a length assignment is accepted
when it forms a complete prefix code (Kraft equality at 15 bits), with the
explicitly permitted degenerate case of at most one used symbol;
over- and under-subscribed sets are rejected. -/
def validLens (lens : List Nat) : Bool :=
  lens.all (fun l => decide (l ≤ 15)) &&
    (decide (usedSyms lens ≤ 1) || kraftSum lens == 2 ^ 15)

/-- An entry of the primary decode table: a directly decodable
(symbol, length) pair, the sentinel routing to the secondary lookup for
codes longer than the prefix width, or an invalid-slot marker. -/
inductive TableEntry where
  | lit (sym len : Nat)
  | secondary
  | invalidEntry
deriving DecidableEq

/-- Modelled from the spec (section 4.2): slot `i` of a primary table with
`w` prefix bits.  Each symbol whose code length is at most `w` fills every
slot whose low-order `len` bits match its code's stream bits; slots whose
low `w` bits match the first `w` stream bits of a longer code hold the
secondary sentinel; remaining slots are invalid. -/
def tableEntry (w : Nat) (lens : List Nat) (i : Nat) : TableEntry :=
  match (canonOrder lens).find? (fun sym =>
      decide (lens.getD sym 0 ≤ w) &&
        (i % 2 ^ (lens.getD sym 0) == bitsVal (codeBits lens sym))) with
  | some sym => .lit sym (lens.getD sym 0)
  | none =>
      if (canonOrder lens).any (fun sym =>
          decide (w < lens.getD sym 0) &&
            (i % 2 ^ w == bitsVal ((codeBits lens sym).take w))) then
        .secondary
      else .invalidEntry

/-- Modelled from the spec (section 4.2): table-driven symbol decode with a
`w`-bit primary table: peek `w` bits and index the table; codes longer
than the prefix width chain through the secondary lookup (the exact
canonical decode of the remaining bits); when fewer than `w` bits are
available the canonical decode serves the lookup directly (section 4.1:
report insufficient data rather than read out of bounds). -/
def decodeSymTable (w : Nat) (lens : List Nat) (bits : List Bool) : DecodeRes :=
  if bits.length < w then decodeSym lens bits
  else
    match tableEntry w lens (bitsVal (bits.take w)) with
    | .lit sym len => .found sym len
    | .secondary => decodeSym lens bits
    | .invalidEntry => .bad

/-- The fixed literal/length code lengths of the format. -/
def fixedLitLens : List Nat :=
  (List.range 288).map (fun s =>
    if s < 144 then 8 else if s < 256 then 9 else if s < 280 then 7 else 8)

/-- The fixed distance code lengths of the format. -/
def fixedDistLens : List Nat := (List.range 32).map (fun _ => 5)

/-- Base lengths of the length symbols 257..285. -/
def lengthBase (sym : Nat) : Nat :=
  ([3, 4, 5, 6, 7, 8, 9, 10, 11, 13] ++
   [15, 17, 19, 23, 27, 31, 35, 43, 51, 59] ++
   [67, 83, 99, 115, 131, 163, 195, 227, 258]).getD (sym - 257) 0

/-- Extra-bit counts of the length symbols 257..285. -/
def lengthExtra (sym : Nat) : Nat :=
  ([0, 0, 0, 0, 0, 0, 0, 0, 1, 1] ++
   [1, 1, 2, 2, 2, 2, 3, 3, 3, 3] ++
   [4, 4, 4, 4, 5, 5, 5, 5, 0]).getD (sym - 257) 0

/-- Base distances of the distance symbols 0..29. -/
def distBase (sym : Nat) : Nat :=
  ([1, 2, 3, 4, 5, 7, 9, 13, 17, 25] ++
   [33, 49, 65, 97, 129, 193, 257, 385, 513, 769] ++
   [1025, 1537, 2049, 3073, 4097, 6145, 8193, 12289, 16385, 24577]).getD sym 0

/-- Extra-bit counts of the distance symbols 0..29. -/
def distExtra (sym : Nat) : Nat :=
  ([0, 0, 0, 0, 1, 1, 2, 2, 3, 3] ++
   [4, 4, 5, 5, 6, 6, 7, 7, 8, 8] ++
   [9, 9, 10, 10, 11, 11, 12, 12, 13, 13]).getD sym 0

/-- The permuted order in which code lengths of the code-length alphabet
are transmitted. -/
def clOrder : List Nat := [16, 17, 18, 0, 8, 7, 9, 6, 10, 5, 11, 4, 12, 3, 13, 2, 14, 1, 15]

/-- The 19 code-length-alphabet lengths reconstructed from the transmitted
list `acc` (untransmitted entries are 0). -/
def clLensOf (acc : List Nat) : List Nat :=
  (List.range 19).map (fun s =>
    match clOrder.findIdx? (fun x => x == s) with
    | some i => acc.getD i 0
    | none => 0)

/-- Modelled from the spec (section 4.3): the phase of the decode engine's
state machine, with the residual scalars each phase needs to resume. -/
inductive Phase where
  | blockHeader
  | storedHeader
  | storedCopy (remaining : Nat)
  | dynHeader
  | dynCodeLens (nlit ndist nclen : Nat) (acc : List Nat)
  | dynLens (clLens : List Nat) (nlit ndist : Nat) (acc : List Nat)
  | symbolLoop (litLens distLens : List Nat)
  | backRef (litLens distLens : List Nat) (len dist : Nat)
  | checkTrailer
  | done
deriving DecidableEq

/-- Modelled from the spec (sections 3 and 4.3): the engine state: the
phase, the residual bit buffer (bits pulled from the input but not yet
decoded), the whole emitted history (most recent byte first; the output
position counter of the spec is its length), the running checksum state,
whether checksum verification is enabled, and whether the current block is
the final one. -/
structure Engine where
  phase : Phase
  bitbuf : List Bool
  history : List Nat
  adler : Nat × Nat
  verifyChecksum : Bool
  final : Bool
deriving DecidableEq

/-- A fresh engine (spec section 3 lifecycle), with the adler32 state at
its initial value `(1, 0)`. -/
def initEngine (verify : Bool) : Engine :=
  ⟨.blockHeader, [], [], (1, 0), verify, false⟩

/-- Emit output bytes (oldest first): extend the history and, unless
verification is disabled, fold the bytes into the running checksum
(spec section 4.4: disabling only skips the accumulation step). -/
def emit (e : Engine) (out : List Nat) : Engine :=
  { e with
      history := out.reverse ++ e.history
      adler := if e.verifyChecksum then adlerFold e.adler out else e.adler }

/-- Modelled from the spec (section 4.3): the phase entered when a block
completes: the next block header, or after the final block the trailer
check (verification enabled) or the terminal state. -/
def afterBlock (e : Engine) : Phase :=
  if e.final then (if e.verifyChecksum then .checkTrailer else .done) else .blockHeader

/-- Modelled from the spec (section 4.3 BackReference): copy `m` bytes
from `dist` bytes back in the history to the front, one byte at a time, so
that overlapping source and destination ranges repeat the pattern.
Returns the bytes in emission order; `none` marks the out-of-range read
that the distance validation rules out. -/
def replay (hist : List Nat) (dist : Nat) : Nat → Option (List Nat)
  | 0 => some []
  | m + 1 =>
    match hist.get? (dist - 1) with
    | none => none
    | some b =>
      match replay (b :: hist) dist m with
      | none => none
      | some rest => some (b :: rest)

/-- Remaining output room after writing `n` bytes (`none` = unbounded). -/
def roomSub (room : Option Nat) (n : Nat) : Option Nat :=
  match room with
  | none => none
  | some r => some (r - n)

/-- Is there room for at least one output byte? -/
def roomHas (room : Option Nat) : Bool :=
  match room with
  | none => true
  | some r => decide (0 < r)

/-- At most `n` bytes, capped by the available room. -/
def roomCap (room : Option Nat) (n : Nat) : Nat :=
  match room with
  | none => n
  | some r => min n r

/-- Outcome of one atomic engine step: progress (with emitted bytes),
progress that exhausted the output room (the call returns immediately),
a blocked step (more input / more output room needed), or a fatal error.
Steps are transactional: a blocked step consumes nothing. -/
inductive StepRes where
  | next (e : Engine) (out : List Nat)
  | flush (e : Engine) (out : List Nat)
  | needInput
  | needOutput
  | fail (err : DecompressionError)

/-- Finish one code-length item of the dynamic-table phase: append the new
lengths, consume `used` bits, and when the expected count is reached split
off and validate the two working tables (spec section 4.3
ReadDynamicTables); exceeding the expected count is a malformed table. -/
def dynLensPush (e : Engine) (clLens : List Nat) (nlit ndist : Nat) (acc2 : List Nat)
    (used : Nat) : StepRes :=
  if nlit + ndist < acc2.length then .fail .MalformedHuffmanTable
  else if acc2.length = nlit + ndist then
    if validLens (acc2.take nlit) && validLens (acc2.drop nlit) then
      .next { e with
          phase := .symbolLoop (acc2.take nlit) (acc2.drop nlit)
          bitbuf := e.bitbuf.drop used } []
    else .fail .MalformedHuffmanTable
  else
    .next { e with
        phase := .dynLens clLens nlit ndist acc2
        bitbuf := e.bitbuf.drop used } []

/-- The 32-bit big-endian value held in the first four bytes of a
byte-aligned bit stream (the checksum trailer). -/
def trailerValue (bits : List Bool) : Nat :=
  bitsVal (bits.take 8) * 16777216 + bitsVal ((bits.drop 8).take 8) * 65536 +
    bitsVal ((bits.drop 16).take 8) * 256 + bitsVal ((bits.drop 24).take 8)

/-- Modelled from the spec (section 4.3): one atomic step of the decode
engine's state machine, decoding against `litW`/`distW`-bit primary
tables.  `none` marks a would-be out-of-bounds history read, which the
distance validation makes unreachable. -/
def step (litW distW : Nat) (e : Engine) (room : Option Nat) : Option StepRes :=
  match e.phase with
  | .blockHeader =>
    if e.bitbuf.length < 3 then some .needInput
    else
      match bitsVal (e.bitbuf.take 1), bitsVal ((e.bitbuf.drop 1).take 2) with
      | fin, 0 => some (.next { e with
          phase := .storedHeader
          bitbuf := e.bitbuf.drop 3
          final := fin == 1 } [])
      | fin, 1 => some (.next { e with
          phase := .symbolLoop fixedLitLens fixedDistLens
          bitbuf := e.bitbuf.drop 3
          final := fin == 1 } [])
      | fin, 2 => some (.next { e with
          phase := .dynHeader
          bitbuf := e.bitbuf.drop 3
          final := fin == 1 } [])
      | _, _ => some (.fail .MalformedHeader)
  | .storedHeader =>
    if e.bitbuf.length < e.bitbuf.length % 8 + 32 then some .needInput
    else
      if bitsVal ((e.bitbuf.drop (e.bitbuf.length % 8)).take 16) +
          bitsVal (((e.bitbuf.drop (e.bitbuf.length % 8)).drop 16).take 16) == 65535 then
        if bitsVal ((e.bitbuf.drop (e.bitbuf.length % 8)).take 16) == 0 then
          some (.next { e with
            phase := afterBlock e
            bitbuf := (e.bitbuf.drop (e.bitbuf.length % 8)).drop 32 } [])
        else
          some (.next { e with
            phase := .storedCopy (bitsVal ((e.bitbuf.drop (e.bitbuf.length % 8)).take 16))
            bitbuf := (e.bitbuf.drop (e.bitbuf.length % 8)).drop 32 } [])
      else some (.fail .MalformedStoredLength)
  | .storedCopy n =>
    if !roomHas room then some .needOutput
    else if e.bitbuf.length < 8 then some .needInput
    else
      some (.next (emit { e with
          bitbuf := e.bitbuf.drop 8
          phase := if n ≤ 1 then afterBlock e else .storedCopy (n - 1) }
        [bitsVal (e.bitbuf.take 8)]) [bitsVal (e.bitbuf.take 8)])
  | .dynHeader =>
    if e.bitbuf.length < 14 then some .needInput
    else
      if bitsVal (e.bitbuf.take 5) + 257 ≤ 286 ∧
          bitsVal ((e.bitbuf.drop 5).take 5) + 1 ≤ 30 then
        some (.next { e with
          phase := .dynCodeLens (bitsVal (e.bitbuf.take 5) + 257)
            (bitsVal ((e.bitbuf.drop 5).take 5) + 1)
            (bitsVal ((e.bitbuf.drop 10).take 4) + 4) []
          bitbuf := e.bitbuf.drop 14 } [])
      else some (.fail .MalformedHuffmanTable)
  | .dynCodeLens nlit ndist nclen acc =>
    if e.bitbuf.length < 3 then some .needInput
    else
      if acc.length + 1 = nclen then
        if validLens (clLensOf (acc ++ [bitsVal (e.bitbuf.take 3)])) then
          some (.next { e with
            phase := .dynLens (clLensOf (acc ++ [bitsVal (e.bitbuf.take 3)])) nlit ndist []
            bitbuf := e.bitbuf.drop 3 } [])
        else some (.fail .MalformedHuffmanTable)
      else
        some (.next { e with
          phase := .dynCodeLens nlit ndist nclen (acc ++ [bitsVal (e.bitbuf.take 3)])
          bitbuf := e.bitbuf.drop 3 } [])
  | .dynLens clLens nlit ndist acc =>
    match decodeSym clLens e.bitbuf with
    | .short => some .needInput
    | .bad => some (.fail .MalformedHuffmanTable)
    | .found sym len =>
      if sym ≤ 15 then
        some (dynLensPush e clLens nlit ndist (acc ++ [sym]) len)
      else if sym = 16 then
        match acc.getLast? with
        | none => some (.fail .MalformedHuffmanTable)
        | some prev =>
          if e.bitbuf.length < len + 2 then some .needInput
          else
            some (dynLensPush e clLens nlit ndist
              (acc ++ List.replicate (3 + bitsVal ((e.bitbuf.drop len).take 2)) prev)
              (len + 2))
      else if sym = 17 then
        if e.bitbuf.length < len + 3 then some .needInput
        else
          some (dynLensPush e clLens nlit ndist
            (acc ++ List.replicate (3 + bitsVal ((e.bitbuf.drop len).take 3)) 0)
            (len + 3))
      else
        if e.bitbuf.length < len + 7 then some .needInput
        else
          some (dynLensPush e clLens nlit ndist
            (acc ++ List.replicate (11 + bitsVal ((e.bitbuf.drop len).take 7)) 0)
            (len + 7))
  | .symbolLoop litLens distLens =>
    match decodeSymTable litW litLens e.bitbuf with
    | .short => some .needInput
    | .bad => some (.fail .InvalidSymbol)
    | .found sym len =>
      if sym < 256 then
        if !roomHas room then some .needOutput
        else
          some (.next (emit { e with bitbuf := e.bitbuf.drop len } [sym]) [sym])
      else if sym = 256 then
        some (.next { e with
          phase := afterBlock e
          bitbuf := e.bitbuf.drop len } [])
      else if sym ≤ 285 then
        if e.bitbuf.length < len + lengthExtra sym then some .needInput
        else
          match decodeSymTable distW distLens (e.bitbuf.drop (len + lengthExtra sym)) with
          | .short => some .needInput
          | .bad => some (.fail .InvalidSymbol)
          | .found dsym dlen =>
            if dsym ≤ 29 then
              if (e.bitbuf.drop (len + lengthExtra sym)).length < dlen + distExtra dsym then
                some .needInput
              else
                some (.next { e with
                  phase := .backRef litLens distLens
                    (lengthBase sym + bitsVal ((e.bitbuf.drop len).take (lengthExtra sym)))
                    (distBase dsym +
                      bitsVal (((e.bitbuf.drop (len + lengthExtra sym)).drop dlen).take
                        (distExtra dsym)))
                  bitbuf := (e.bitbuf.drop (len + lengthExtra sym)).drop
                    (dlen + distExtra dsym) } [])
            else some (.fail .InvalidSymbol)
      else some (.fail .InvalidSymbol)
  | .backRef litLens distLens len dist =>
    if !roomHas room then some .needOutput
    else if dist = 0 ∨ e.history.length < dist then some (.fail .InvalidDistance)
    else
      match replay e.history dist (roomCap room len) with
      | none => none
      | some out =>
        if roomCap room len = len then
          some (.next { emit e out with phase := .symbolLoop litLens distLens } out)
        else
          some (.flush { emit e out with
            phase := .backRef litLens distLens (len - roomCap room len) dist } out)
  | .checkTrailer =>
    if e.bitbuf.length < e.bitbuf.length % 8 + 32 then some .needInput
    else
      if trailerValue (e.bitbuf.drop (e.bitbuf.length % 8)) == adlerValue e.adler then
        some (.next { e with
          phase := .done
          bitbuf := (e.bitbuf.drop (e.bitbuf.length % 8)).drop 32 } [])
      else some (.fail .ChecksumMismatch)
  | .done => some (.next e [])

/-- Modelled from the spec (section 6): the body of one iteration of a
`read` call's loop; `recur` continues with the remaining fuel.  Steps run
until the engine is done, blocked on input (pulling one input byte at a
time into the bit buffer), blocked on output room, or failed.  With
`end_of_input` set, running out of input while the engine cannot make
progress is the truncation error - except in the trailer phase, where a
missing trailer simply ends the stream (a mismatch is only reportable when
a trailer is present).  Returns the engine, the count of input bytes
consumed and the bytes emitted; `none` is exhausted fuel or the
out-of-bounds read, both shown unreachable. -/
def runBody (litW distW : Nat)
    (recur : Engine → List Nat → Option Nat → Bool →
      Option (Except DecompressionError (Engine × Nat × List Nat)))
    (e : Engine) (inp : List Nat) (room : Option Nat) (eof : Bool) :
    Option (Except DecompressionError (Engine × Nat × List Nat)) :=
  if e.phase = .done then some (Except.ok (e, 0, []))
  else
    match step litW distW e room with
    | none => none
    | some (.fail err) => some (Except.error err)
    | some (.flush e1 out) => some (Except.ok (e1, 0, out))
    | some .needOutput => some (Except.ok (e, 0, []))
    | some (.next e1 out) =>
      match recur e1 inp (roomSub room out.length) eof with
      | none => none
      | some (Except.error err) => some (Except.error err)
      | some (Except.ok (e2, c, o2)) => some (Except.ok (e2, c, out ++ o2))
    | some .needInput =>
      match inp with
      | b :: rest =>
        match recur { e with bitbuf := e.bitbuf ++ byteBits b } rest room eof with
        | none => none
        | some (Except.error err) => some (Except.error err)
        | some (Except.ok (e2, c, o2)) => some (Except.ok (e2, c + 1, o2))
      | [] =>
        if eof then
          if e.phase = .checkTrailer then some (Except.ok ({ e with phase := .done }, 0, []))
          else some (Except.error .TruncatedInput)
        else some (Except.ok (e, 0, []))

def runLoop (litW distW : Nat) :
    Nat → Engine → List Nat → Option Nat → Bool →
    Option (Except DecompressionError (Engine × Nat × List Nat))
  | 0, _, _, _, _ => none
  | f + 1, e, inp, room, eof => runBody litW distW (runLoop litW distW f) e inp room eof

/-- Fuel that always suffices for one `read` call (every non-terminal step
consumes a bit, pulls an input byte, or finishes a back-reference). -/
def fuelFor (e : Engine) (inp : List Nat) : Nat :=
  2 * e.bitbuf.length + 17 * inp.length + 4

/-- Modelled from the spec (section 6): the
`read(input, output, output_offset, end_of_input)` operation on the
engine, with the output buffer abstracted to its available room
(`output.len() - output_offset`; `none` = unbounded). -/
def readEngine (litW distW : Nat) (e : Engine) (input : List Nat) (room : Option Nat)
    (eof : Bool) : Option (Except DecompressionError (Engine × Nat × List Nat)) :=
  runLoop litW distW (fuelFor e input) e input room eof

/-- Decompress a whole input in one `read` call with unbounded room and
`end_of_input` set. -/
def inflateCore (litW distW : Nat) (verify : Bool) (input : List Nat) :
    Option (Except DecompressionError (List Nat)) :=
  match readEngine litW distW (initEngine verify) input none true with
  | none => none
  | some (Except.error err) => some (Except.error err)
  | some (Except.ok (_, _, out)) => some (Except.ok out)

/-- Decompression as `GenericDecompressor::<L, D>` configures it: the
primary-table prefix widths are the base-2 logarithms of the two
compile-time table sizes.  Checksum verification is off, as in the fuzz
harnesses (`ignore_adler32`). -/
def inflateWithTableSizes (litSize distSize : Nat) (input : List Nat) :
    Option (Except DecompressionError (List Nat)) :=
  inflateCore (Nat.log2 litSize) (Nat.log2 distSize) false input

/-- Drive the engine through `read` calls with an explicit schedule of
(input-chunk size, output-room) pairs, then finish with a call supplying
all remaining input with unbounded room and, in late end-of-input mode, a
final flush call with empty input and `end_of_input` set.  The
`end_of_input` flag of each call follows `decompress_impl`: with
`early_eof` it is set as soon as the chunk's end reaches the end of the
input, otherwise only once the whole input was consumed before the call. -/
def runSched (litW distW : Nat) (input : List Nat) (earlyEof : Bool) :
    List (Nat × Nat) → Engine → Nat → Option (Except DecompressionError (List Nat))
  | [], e, pos =>
    match readEngine litW distW e (input.drop pos) none
        (if earlyEof then true else decide (input.length ≤ pos)) with
    | none => none
    | some (Except.error err) => some (Except.error err)
    | some (Except.ok (e1, c1, o1)) =>
      if e1.phase = .done then some (Except.ok o1)
      else
        match readEngine litW distW e1 [] none true with
        | none => none
        | some (Except.error err) => some (Except.error err)
        | some (Except.ok (_, _, o2)) => some (Except.ok (o1 ++ o2))
  | (ic, oc) :: rest, e, pos =>
    match readEngine litW distW e ((input.drop pos).take ic) (some oc)
        (if earlyEof then decide (input.length ≤ pos + ic) else decide (input.length ≤ pos)) with
    | none => none
    | some (Except.error err) => some (Except.error err)
    | some (Except.ok (e1, c1, o1)) =>
      if e1.phase = .done then some (Except.ok o1)
      else
        match runSched litW distW input earlyEof rest e1 (pos + c1) with
        | none => none
        | some (Except.error err) => some (Except.error err)
        | some (Except.ok o2) => some (Except.ok (o1 ++ o2))

/-- The bytes a step emits (empty for blocked/failed steps). -/
def stepOutBytes : StepRes → List Nat
  | .next _ out => out
  | .flush _ out => out
  | _ => []

/-- 1 when the engine is mid back-reference (a replay step emits without
consuming bits), else 0: the tie-breaker of the step measure. -/
def brFlag (e : Engine) : Nat :=
  match e.phase with
  | .backRef _ _ _ _ => 1
  | _ => 0

/-- Glue the result of a continued `read` run onto the consumed/emitted
counts of an earlier partial run: errors pass through, successes add the
consumed counts and concatenate the outputs. -/
def glueRes (c1 : Nat) (o1 : List Nat) :
    Except DecompressionError (Engine × Nat × List Nat) →
    Except DecompressionError (Engine × Nat × List Nat)
  | .error err => .error err
  | .ok (e2, c2, o2) => .ok (e2, c1 + c2, o1 ++ o2)

/-- The reference outcome from an engine state: one `read` call with all
remaining input, unbounded output room and `end_of_input` set, keeping
only the error or the emitted bytes. -/
def refRun (litW distW : Nat) (e : Engine) (rest : List Nat) :
    Option (Except DecompressionError (List Nat)) :=
  match readEngine litW distW e rest none true with
  | none => none
  | some (Except.error err) => some (Except.error err)
  | some (Except.ok (_, _, out)) => some (Except.ok out)

/-- The phase a checksum-ignoring engine is in when a verifying engine is
in the given phase: the trailer check is skipped (spec section 4.4), all
other phases coincide. -/
def stripPhase : Phase → Phase
  | .checkTrailer => .done
  | p => p

/-- The checksum-ignoring twin of a verifying engine: same phase (modulo
the skipped trailer check), bit buffer, history and final flag, with
verification off and the unused checksum state frozen at `ad`. -/
def stripEngine (ad : Nat × Nat) (e : Engine) : Engine :=
  { e with phase := stripPhase e.phase, adler := ad, verifyChecksum := false }

/-- Map a step outcome to the checksum-ignoring twin's outcome: progress
reaches the twin state, blocked and failed steps are unchanged. -/
def stripRes (ad : Nat × Nat) : Option StepRes → Option StepRes
  | some (.next e1 out) => some (.next (stripEngine ad e1) out)
  | some (.flush e1 out) => some (.flush (stripEngine ad e1) out)
  | r => r

theorem resizeOut_length (buf : Nat → Nat) (outPos : Nat) :
    (resizeOut buf outPos).length = outPos := by
  simp [resizeOut]

theorem sliceOf_empty_of_le (input : List Nat) (start stop : Nat) (h : stop ≤ start) :
    sliceOf input start stop = [] := by
  simp [sliceOf, Nat.sub_eq_zero_of_le h]

theorem getLast?_cons_some {α : Type} (a : α) (l : List α) (e : α)
    (h : l.getLast? = some e) : (a :: l).getLast? = some e := by
  cases l with
  | nil => simp at h
  | cons b t => rw [List.getLast?_cons_cons]; exact h

theorem driveIter_err_cases {S : Type} (d : AbsDecompressor S) (input : List Nat)
    (chunks : Nat → Option Nat) (earlyEof : Bool)
    (idx : Nat) (s : S) (inPos outPos : Nat) (buf : Nat → Nat)
    (e : TestDecompressionError) (s' : S) (op : Nat) (entry : CallRecord)
    (h : driveIter d input chunks earlyEof idx s inPos outPos buf = .err e s' op entry) :
    (∃ pe, e = .ProdError pe) ∨
      (e = .TestError .OutputTooLarge ∧ entry.outPosAfter = outBufLen ∧
        entry.consumed = 0 ∧ entry.doneAfter = false ∧ op = entry.outPosAfter) := by
  unfold driveIter at h
  split at h
  · injection h with h1 h2 h3 h4
    exact Or.inl ⟨_, h1.symm⟩
  · rename_i s'' c w buf'' heq
    split at h
    · rename_i hguard
      injection h with h1 h2 h3 h4
      subst h1 h2 h3 h4
      simp only [Bool.and_eq_true, beq_iff_eq, Bool.not_eq_eq_eq_not, Bool.not_true] at hguard
      exact Or.inr ⟨rfl, hguard.1.1, hguard.1.2, hguard.2, rfl⟩
    · exact absurd h (by simp)

theorem driveIter_cont_props {S : Type} (d : AbsDecompressor S) (input : List Nat)
    (chunks : Nat → Option Nat) (earlyEof : Bool)
    (idx : Nat) (s : S) (inPos outPos : Nat) (buf : Nat → Nat)
    (s' : S) (ip op : Nat) (buf' : Nat → Nat) (entry : CallRecord)
    (h : driveIter d input chunks earlyEof idx s inPos outPos buf = .cont s' ip op buf' entry) :
    ip = inPos + entry.consumed ∧ op = outPos + entry.written ∧
      entry.outPosAfter = op ∧ entry.doneAfter = d.isDone s' ∧
      ¬(entry.outPosAfter = outBufLen ∧ entry.consumed = 0 ∧ entry.doneAfter = false) := by
  unfold driveIter at h
  split at h
  · exact absurd h (by simp)
  · rename_i s'' c w buf'' heq
    split at h
    · exact absurd h (by simp)
    · rename_i hguard
      injection h with h1 h2 h3 h4 h5
      subst h1 h2 h3 h4 h5
      refine ⟨rfl, rfl, rfl, rfl, ?_⟩
      rintro ⟨g1, g2, g3⟩
      apply hguard
      simp only [Bool.and_eq_true, beq_iff_eq, Bool.not_eq_eq_eq_not, Bool.not_true]
      exact ⟨⟨g1, g2⟩, g3⟩

theorem driveIter_entry_shape {S : Type} (d : AbsDecompressor S) (input : List Nat)
    (chunks : Nat → Option Nat) (earlyEof : Bool)
    (idx : Nat) (s : S) (inPos outPos : Nat) (buf : Nat → Nat) :
    (driveIter d input chunks earlyEof idx s inPos outPos buf).entryOf.start = inPos ∧
    (driveIter d input chunks earlyEof idx s inPos outPos buf).entryOf.stop =
      chunkStop input chunks idx inPos ∧
    (driveIter d input chunks earlyEof idx s inPos outPos buf).entryOf.eof =
      eofFlag earlyEof
        ((driveIter d input chunks earlyEof idx s inPos outPos buf).entryOf.start)
        ((driveIter d input chunks earlyEof idx s inPos outPos buf).entryOf.stop)
        input.length := by
  unfold driveIter
  split
  · simp [IterOut.entryOf]
  · rename_i s'' c w buf'' heq
    split
    · simp [IterOut.entryOf]
    · simp [IterOut.entryOf]

theorem driveGo_trace_length_le {S : Type} (d : AbsDecompressor S) (input : List Nat)
    (chunks : Nat → Option Nat) (earlyEof : Bool) :
    ∀ left idx s inPos outPos buf,
      (driveGo d input chunks earlyEof left idx s inPos outPos buf).trace.length ≤ left := by
  intro left
  induction left with
  | zero =>
    intro idx s inPos outPos buf
    rw [driveGo]
    by_cases h : d.isDone s <;> simp [h]
  | succ left' ih =>
    intro idx s inPos outPos buf
    rw [driveGo]
    by_cases h : d.isDone s
    · simp [h]
    · simp only [h, if_false, Bool.false_eq_true]
      cases hit : driveIter d input chunks earlyEof idx s inPos outPos buf with
      | err e s' op entry => simp
      | cont s' ip op buf' entry =>
        simp only [List.length_cons]
        exact Nat.succ_le_succ (ih _ _ _ _ _)

theorem driveGo_stuck_res : ∀ left idx (buf : Nat → Nat),
    (driveGo stuckBehaviour [] (fun _ => none) false left idx () 0 0 buf).res =
      Except.error (.TestError .TooManyIterations) := by
  intro left
  induction left with
  | zero =>
    intro idx buf
    rfl
  | succ left' ih =>
    intro idx buf
    show (driveGo stuckBehaviour [] (fun _ => none) false left' (idx + 1) () 0 0 buf).res =
      Except.error (.TestError .TooManyIterations)
    exact ih (idx + 1) buf

theorem driveGo_tooMany {S : Type} (d : AbsDecompressor S) (input : List Nat)
    (chunks : Nat → Option Nat) (earlyEof : Bool) :
    ∀ left idx s inPos outPos buf,
      (driveGo d input chunks earlyEof left idx s inPos outPos buf).res =
        Except.error (.TestError .TooManyIterations) →
      (driveGo d input chunks earlyEof left idx s inPos outPos buf).trace.length = left ∧
      d.isDone (driveGo d input chunks earlyEof left idx s inPos outPos buf).finalState = false := by
  intro left
  induction left with
  | zero =>
    intro idx s inPos outPos buf hres
    rw [driveGo] at hres ⊢
    by_cases h : d.isDone s
    · simp [h] at hres
    · simp [h]
  | succ left' ih =>
    intro idx s inPos outPos buf hres
    rw [driveGo] at hres ⊢
    by_cases h : d.isDone s
    · simp [h] at hres
    · simp only [h, if_false, Bool.false_eq_true] at hres ⊢
      revert hres
      cases hit : driveIter d input chunks earlyEof idx s inPos outPos buf with
      | err e s' op entry =>
        intro hres
        simp only [Except.error.injEq] at hres
        rcases driveIter_err_cases d input chunks earlyEof idx s inPos outPos buf
            e s' op entry hit with ⟨pe, hpe⟩ | ⟨hol, _⟩
        · rw [hpe] at hres; simp at hres
        · rw [hol] at hres; simp at hres
      | cont s' ip op buf' entry =>
        intro hres
        obtain ⟨h1, h2⟩ := ih (idx + 1) s' ip op buf' hres
        simpa [h1] using h2

theorem driveGo_ok {S : Type} (d : AbsDecompressor S) (input : List Nat)
    (chunks : Nat → Option Nat) (earlyEof : Bool) :
    ∀ left idx s inPos outPos buf o,
      (driveGo d input chunks earlyEof left idx s inPos outPos buf).res = Except.ok o →
      d.isDone (driveGo d input chunks earlyEof left idx s inPos outPos buf).finalState = true ∧
      (driveGo d input chunks earlyEof left idx s inPos outPos buf).finalOutPos =
        outPos + (((driveGo d input chunks earlyEof left idx s inPos outPos buf).trace).map
          CallRecord.written).sum ∧
      o.length = (driveGo d input chunks earlyEof left idx s inPos outPos buf).finalOutPos ∧
      ∀ entry ∈ (driveGo d input chunks earlyEof left idx s inPos outPos buf).trace,
        ¬(entry.outPosAfter = outBufLen ∧ entry.consumed = 0 ∧ entry.doneAfter = false) := by
  intro left
  induction left with
  | zero =>
    intro idx s inPos outPos buf o hres
    rw [driveGo] at hres ⊢
    by_cases h : d.isDone s
    · simp only [h, if_true] at hres ⊢
      simp only [Except.ok.injEq] at hres
      subst hres
      simp [resizeOut_length, h]
    · simp [h] at hres
  | succ left' ih =>
    intro idx s inPos outPos buf o hres
    rw [driveGo] at hres ⊢
    by_cases h : d.isDone s
    · simp only [h, if_true] at hres ⊢
      simp only [Except.ok.injEq] at hres
      subst hres
      simp [resizeOut_length, h]
    · simp only [h, if_false, Bool.false_eq_true] at hres ⊢
      revert hres
      cases hit : driveIter d input chunks earlyEof idx s inPos outPos buf with
      | err e s' op entry =>
        intro hres
        simp at hres
      | cont s' ip op buf' entry =>
        intro hres
        obtain ⟨hdone, hfo, hlen, hall⟩ := ih (idx + 1) s' ip op buf' o hres
        obtain ⟨hip, hop, hopa, hda, hng⟩ :=
          driveIter_cont_props d input chunks earlyEof idx s inPos outPos buf
            s' ip op buf' entry hit
        refine ⟨hdone, ?_, hlen, ?_⟩
        · simp only [List.map_cons, List.sum_cons]
          rw [hfo, hop]
          ring
        · intro x hx
          rcases List.mem_cons.mp hx with hx | hx
          · subst hx; exact hng
          · exact hall x hx

theorem driveGo_outputTooLarge {S : Type} (d : AbsDecompressor S) (input : List Nat)
    (chunks : Nat → Option Nat) (earlyEof : Bool) :
    ∀ left idx s inPos outPos buf,
      (driveGo d input chunks earlyEof left idx s inPos outPos buf).res =
        Except.error (.TestError .OutputTooLarge) →
      ∃ entry, (driveGo d input chunks earlyEof left idx s inPos outPos buf).trace.getLast? =
          some entry ∧
        entry.outPosAfter = outBufLen ∧ entry.consumed = 0 ∧ entry.doneAfter = false ∧
        (driveGo d input chunks earlyEof left idx s inPos outPos buf).finalOutPos =
          entry.outPosAfter := by
  intro left
  induction left with
  | zero =>
    intro idx s inPos outPos buf hres
    rw [driveGo] at hres ⊢
    by_cases h : d.isDone s
    · simp [h] at hres
    · simp [h] at hres
  | succ left' ih =>
    intro idx s inPos outPos buf hres
    rw [driveGo] at hres ⊢
    by_cases h : d.isDone s
    · simp [h] at hres
    · simp only [h, if_false, Bool.false_eq_true] at hres ⊢
      revert hres
      cases hit : driveIter d input chunks earlyEof idx s inPos outPos buf with
      | err e s' op entry =>
        intro hres
        simp only [Except.error.injEq] at hres
        rcases driveIter_err_cases d input chunks earlyEof idx s inPos outPos buf
            e s' op entry hit with ⟨pe, hpe⟩ | ⟨_, hopa, hc, hda, hop⟩
        · rw [hpe] at hres; simp at hres
        · exact ⟨entry, by simp, hopa, hc, hda, hop⟩
      | cont s' ip op buf' entry =>
        intro hres
        obtain ⟨e2, hlast, hopa, hc, hda, hfo⟩ := ih (idx + 1) s' ip op buf' hres
        exact ⟨e2, getLast?_cons_some entry _ e2 hlast, hopa, hc, hda, hfo⟩

theorem driveGo_trace_entries {S : Type} (d : AbsDecompressor S) (input : List Nat)
    (chunks : Nat → Option Nat) (earlyEof : Bool) :
    ∀ left idx s inPos outPos buf j entry,
      (driveGo d input chunks earlyEof left idx s inPos outPos buf).trace.get? j = some entry →
      entry.start = inPos +
        (((driveGo d input chunks earlyEof left idx s inPos outPos buf).trace.take j).map
          CallRecord.consumed).sum ∧
      entry.stop = chunkStop input chunks (idx + j) entry.start ∧
      entry.eof = eofFlag earlyEof entry.start entry.stop input.length := by
  intro left
  induction left with
  | zero =>
    intro idx s inPos outPos buf j entry hget
    rw [driveGo] at hget
    by_cases h : d.isDone s <;> simp [h] at hget
  | succ left' ih =>
    intro idx s inPos outPos buf j entry hget
    rw [driveGo] at hget ⊢
    by_cases h : d.isDone s
    · simp [h] at hget
    · simp only [h, if_false, Bool.false_eq_true] at hget ⊢
      revert hget
      cases hit : driveIter d input chunks earlyEof idx s inPos outPos buf with
      | err e0 s' op entry0 =>
        intro hget
        have hshape := driveIter_entry_shape d input chunks earlyEof idx s inPos outPos buf
        rw [hit] at hshape
        simp only [IterOut.entryOf] at hshape
        cases j with
        | zero =>
          simp only [List.get?_cons_zero, Option.some.injEq] at hget
          subst hget
          obtain ⟨hs1, hs2, hs3⟩ := hshape
          refine ⟨by simp [hs1], ?_, hs3⟩
          rw [hs2, hs1]
          simp
        | succ j' =>
          simp only [List.get?_cons_succ, List.get?_nil] at hget
          cases hget
      | cont s' ip op buf' entry0 =>
        intro hget
        have hshape := driveIter_entry_shape d input chunks earlyEof idx s inPos outPos buf
        rw [hit] at hshape
        simp only [IterOut.entryOf] at hshape
        obtain ⟨hip, _, _, _, _⟩ :=
          driveIter_cont_props d input chunks earlyEof idx s inPos outPos buf
            s' ip op buf' entry0 hit
        cases j with
        | zero =>
          simp only [List.get?_cons_zero, Option.some.injEq] at hget
          subst hget
          obtain ⟨hs1, hs2, hs3⟩ := hshape
          refine ⟨by simp [hs1], ?_, hs3⟩
          rw [hs2, hs1]
          simp
        | succ j' =>
          simp only [List.get?_cons_succ] at hget
          obtain ⟨h1, h2, h3⟩ := ih (idx + 1) s' ip op buf' j' entry hget
          refine ⟨?_, ?_, h3⟩
          · simp only [List.take_succ_cons, List.map_cons, List.sum_cons]
            rw [h1, hip]
            omega
          · rw [h2]
            have hidx : idx + 1 + j' = idx + (j' + 1) := by omega
            rw [hidx]

/-- **C8**: for every input, every chunks iterator and every behaviour of
the underlying decompressor, `decompress_impl` terminates after at most
5000 `read` calls, and when it returns the `TooManyIterations` test error
it has made exactly 5000 read calls and `is_done` still did not hold. -/
theorem claim_C8_decompressImpl_iteration_guard {S : Type} (d : AbsDecompressor S) (s0 : S)
    (input : List Nat) (chunks : Nat → Option Nat) (earlyEof : Bool) :
    (decompressImplA d s0 input chunks earlyEof).trace.length ≤ 5000 ∧
    ((decompressImplA d s0 input chunks earlyEof).res =
        Except.error (.TestError .TooManyIterations) →
      (decompressImplA d s0 input chunks earlyEof).trace.length = 5000 ∧
      d.isDone (decompressImplA d s0 input chunks earlyEof).finalState = false) := by
  unfold decompressImplA
  exact ⟨driveGo_trace_length_le d input chunks earlyEof 5000 0 _ 0 0 _,
    driveGo_tooMany d input chunks earlyEof 5000 0 _ 0 0 _⟩

theorem claim_C8_witness :
    (decompressImplA stuckBehaviour () [] (fun _ => none) false).res =
      Except.error (.TestError .TooManyIterations) ∧
    (decompressImplA stuckBehaviour () [] (fun _ => none) false).trace.length = 5000 ∧
    stuckBehaviour.isDone
      (decompressImplA stuckBehaviour () [] (fun _ => none) false).finalState = false := by
  have h : (decompressImplA stuckBehaviour () [] (fun _ => none) false).res =
      Except.error (.TestError .TooManyIterations) := driveGo_stuck_res 5000 0 (fun _ => 0)
  exact ⟨h, (claim_C8_decompressImpl_iteration_guard stuckBehaviour () [] (fun _ => none) false).2 h⟩

/-- **C9**: in `decompress_impl`, a read call made after the chunks
iterator is exhausted receives an empty input slice (the chunk size
defaults to 0), and the `end_of_input` flag of every call is true exactly
when all input was consumed before the call (`early_eof = false`),
respectively exactly when the chunk's end reaches the end of the input
(`early_eof = true`).  `entry.start` is the number of input bytes consumed
before the call and `entry.stop` the chunk's end. -/
theorem claim_C9_decompressImpl_slices_and_eof {S : Type} (d : AbsDecompressor S) (s0 : S)
    (input : List Nat) (chunks : Nat → Option Nat) (earlyEof : Bool)
    (j : Nat) (entry : CallRecord)
    (hget : (decompressImplA d s0 input chunks earlyEof).trace.get? j = some entry) :
    (chunks j = none → sliceOf input entry.start entry.stop = []) ∧
    entry.start = (((decompressImplA d s0 input chunks earlyEof).trace.take j).map
      CallRecord.consumed).sum ∧
    entry.eof = (if earlyEof then entry.stop == input.length
                 else entry.start == input.length) := by
  unfold decompressImplA at hget
  obtain ⟨h1, h2, h3⟩ := driveGo_trace_entries d input chunks earlyEof 5000 0 _ 0 0 _ j entry hget
  refine ⟨?_, by simpa using h1, by simpa [eofFlag] using h3⟩
  intro hnone
  apply sliceOf_empty_of_le
  rw [h2]
  simp only [Nat.zero_add] at *
  simp [chunkStop, hnone]

theorem claim_C9_witness :
    (decompressImplA oneCallBehaviour 0 [] (fun _ => none) false).trace.get? 0 =
      some ⟨0, 0, true, 0, 0, 0, true⟩ ∧
    ((fun _ => (none : Option Nat)) 0 = none →
      sliceOf [] (0 : Nat) (0 : Nat) = []) ∧
    (0 : Nat) = (((decompressImplA oneCallBehaviour 0 [] (fun _ => none) false).trace.take 0).map
      CallRecord.consumed).sum ∧
    (true : Bool) = (if (false : Bool) then ((0 : Nat) == ([] : List Nat).length)
                     else ((0 : Nat) == ([] : List Nat).length)) := by
  have hget : (decompressImplA oneCallBehaviour 0 [] (fun _ => none) false).trace.get? 0 =
      some ⟨0, 0, true, 0, 0, 0, true⟩ := by rfl
  have h := claim_C9_decompressImpl_slices_and_eof oneCallBehaviour 0 [] (fun _ => none) false
    0 ⟨0, 0, true, 0, 0, 0, true⟩ hget
  exact ⟨hget, h.1, h.2.1, h.2.2⟩

/-- **C10**: `decompress_impl` returns the `OutputTooLarge` test error
exactly when, after a read call, the 1,000,000-byte output buffer is full,
that call consumed zero input and the decompressor is not done (the
triggering call is the last in the trace); in every successful run the
loop stopped because `is_done` held, no call satisfied the triggering
condition, and the returned vector's length equals the total number of
output bytes written. -/
theorem claim_C10_decompressImpl_outputTooLarge {S : Type} (d : AbsDecompressor S) (s0 : S)
    (input : List Nat) (chunks : Nat → Option Nat) (earlyEof : Bool) :
    ((decompressImplA d s0 input chunks earlyEof).res =
        Except.error (.TestError .OutputTooLarge) →
      ∃ entry, (decompressImplA d s0 input chunks earlyEof).trace.getLast? = some entry ∧
        entry.outPosAfter = outBufLen ∧ entry.consumed = 0 ∧ entry.doneAfter = false) ∧
    (∀ o, (decompressImplA d s0 input chunks earlyEof).res = Except.ok o →
      d.isDone (decompressImplA d s0 input chunks earlyEof).finalState = true ∧
      o.length = (((decompressImplA d s0 input chunks earlyEof).trace).map
        CallRecord.written).sum ∧
      ∀ entry ∈ (decompressImplA d s0 input chunks earlyEof).trace,
        ¬(entry.outPosAfter = outBufLen ∧ entry.consumed = 0 ∧ entry.doneAfter = false)) := by
  unfold decompressImplA
  constructor
  · intro hres
    obtain ⟨entry, hlast, hopa, hc, hda, _⟩ :=
      driveGo_outputTooLarge d input chunks earlyEof 5000 0 _ 0 0 _ hres
    exact ⟨entry, hlast, hopa, hc, hda⟩
  · intro o hres
    obtain ⟨hdone, hfo, hlen, hall⟩ := driveGo_ok d input chunks earlyEof 5000 0 _ 0 0 _ o hres
    refine ⟨hdone, ?_, hall⟩
    rw [hlen, hfo]
    simp

theorem claim_C10_witness :
    ((∃ entry, (decompressImplA floodBehaviour () [] (fun _ => none) false).trace.getLast? =
        some entry ∧
      entry.outPosAfter = outBufLen ∧ entry.consumed = 0 ∧ entry.doneAfter = false)) ∧
    (doneBehaviour.isDone
        (decompressImplA doneBehaviour () [] (fun _ => none) false).finalState = true ∧
      ([] : List Nat).length =
        (((decompressImplA doneBehaviour () [] (fun _ => none) false).trace).map
          CallRecord.written).sum) := by
  have h1 : (decompressImplA floodBehaviour () [] (fun _ => none) false).res =
      Except.error (.TestError .OutputTooLarge) := by rfl
  have h2 : (decompressImplA doneBehaviour () [] (fun _ => none) false).res =
      Except.ok ([] : List Nat) := by rfl
  have ha := (claim_C10_decompressImpl_outputTooLarge floodBehaviour () [] (fun _ => none) false).1 h1
  have hb := (claim_C10_decompressImpl_outputTooLarge doneBehaviour () [] (fun _ => none) false).2 [] h2
  exact ⟨ha, hb.1, hb.2.1⟩

theorem bitsVal_append (a b : List Bool) :
    bitsVal (a ++ b) = bitsVal a + 2 ^ a.length * bitsVal b := by
  induction a with
  | nil => simp [bitsVal]
  | cons x xs ih =>
    simp only [List.cons_append, bitsVal, List.length_cons, List.append_eq] at *
    rw [ih]
    ring

theorem bitsVal_lt (a : List Bool) : bitsVal a < 2 ^ a.length := by
  induction a with
  | nil => simp [bitsVal]
  | cons x xs ih =>
    simp only [bitsVal, List.length_cons, pow_succ]
    cases x <;> simp <;> omega

theorem bitsVal_inj : ∀ (a b : List Bool), a.length = b.length →
    bitsVal a = bitsVal b → a = b := by
  intro a
  induction a with
  | nil =>
    intro b hlen _
    cases b with
    | nil => rfl
    | cons y ys => simp at hlen
  | cons x xs ih =>
    intro b hlen hval
    cases b with
    | nil => simp at hlen
    | cons y ys =>
      simp only [List.length_cons, Nat.succ.injEq] at hlen
      simp only [bitsVal] at hval
      have hxy : x = y ∧ bitsVal xs = bitsVal ys := by
        cases x <;> cases y <;> simp at hval ⊢ <;> omega
      rw [hxy.1, ih ys hlen hxy.2]

theorem bitsVal_take_mod (bits : List Bool) (l w : Nat) (hlw : l ≤ w)
    (hw : w ≤ bits.length) : bitsVal (bits.take w) % 2 ^ l = bitsVal (bits.take l) := by
  have hsplit : bits.take w = bits.take l ++ (bits.drop l).take (w - l) := by
    rw [← List.take_add]
    congr 1
    omega
  have hlen : (bits.take l).length = l := by
    rw [List.length_take]
    omega
  rw [hsplit, bitsVal_append, hlen, Nat.add_mul_mod_self_left,
    Nat.mod_eq_of_lt (by simpa [hlen] using bitsVal_lt (bits.take l))]

theorem find?_none_of_all_false {p : Nat → Bool} :
    ∀ (l : List Nat), (∀ x ∈ l, p x = false) → l.find? p = none := by
  intro l h
  rw [List.find?_eq_none]
  intro x hx
  simp [h x hx]

theorem find?_table_rel (key : Nat → Nat) (w : Nat) :
    ∀ (l : List Nat) (p q : Nat → Bool),
      List.Pairwise (fun a b => key a ≤ key b) l →
      (∀ x ∈ l, key x ≤ w → p x = q x) →
      (∀ x ∈ l, w < key x → q x = false) →
      (l.find? p = none → l.find? q = none) ∧
      (∀ s, l.find? p = some s → key s ≤ w → l.find? q = some s) ∧
      (∀ s, l.find? p = some s → w < key s → l.find? q = none) := by
  intro l
  induction l with
  | nil => intro p q _ _ _; exact ⟨fun _ => rfl, fun s h => by simp at h, fun s h => by simp at h⟩
  | cons h t ih =>
    intro p q hpw hagree hqf
    have hkey : ∀ y ∈ t, key h ≤ key y := (List.pairwise_cons.mp hpw).1
    have hpt := (List.pairwise_cons.mp hpw).2
    have ihr := ih p q hpt (fun x hx => hagree x (List.mem_cons_of_mem h hx))
      (fun x hx => hqf x (List.mem_cons_of_mem h hx))
    by_cases ph : p h = true
    · by_cases hkh : key h ≤ w
      · have qh : q h = true := by rw [← hagree h (List.mem_cons_self h t) hkh]; exact ph
        refine ⟨?_, ?_, ?_⟩
        · intro hc
          rw [List.find?_cons_of_pos _ ph] at hc
          simp at hc
        · intro s hs _
          rw [List.find?_cons_of_pos _ ph] at hs
          rw [List.find?_cons_of_pos _ qh]
          exact hs
        · intro s hs hws
          rw [List.find?_cons_of_pos _ ph] at hs
          simp only [Option.some.injEq] at hs
          subst hs
          omega
      · have hwh : w < key h := by omega
        have qall : ∀ x ∈ h :: t, q x = false := by
          intro x hx
          rcases List.mem_cons.mp hx with hx | hx
          · subst hx; exact hqf x (List.mem_cons_self x t) hwh
          · exact hqf x (List.mem_cons_of_mem h hx) (by have := hkey x hx; omega)
        have hqn : (h :: t).find? q = none := find?_none_of_all_false _ qall
        refine ⟨fun _ => hqn, ?_, fun s _ _ => hqn⟩
        intro s hs hsw
        rw [List.find?_cons_of_pos _ ph] at hs
        simp only [Option.some.injEq] at hs
        subst hs
        omega
    · have ph' : p h = false := by revert ph; cases p h <;> simp
      have qh : q h = false := by
        by_cases hkh : key h ≤ w
        · rw [← hagree h (List.mem_cons_self h t) hkh]; exact ph'
        · exact hqf h (List.mem_cons_self h t) (by omega)
      rw [List.find?_cons_of_neg _ (by simp [ph']), List.find?_cons_of_neg _ (by simp [qh])]
      refine ⟨ihr.1, ?_, ?_⟩
      · intro s hs hsw
        exact ihr.2.1 s hs hsw
      · intro s hs hws
        exact ihr.2.2 s hs hws

theorem codeBits_length (lens : List Nat) (sym : Nat) :
    (codeBits lens sym).length = lens.getD sym 0 := by
  simp [codeBits]

theorem canonOrder_key {lens : List Nat} {x : Nat} (hx : x ∈ canonOrder lens) :
    1 ≤ lens.getD x 0 ∧ lens.getD x 0 ≤ 15 := by
  unfold canonOrder at hx
  simp only [List.mem_flatMap] at hx
  obtain ⟨l, hl, hxl⟩ := hx
  by_cases h0 : l = 0
  · subst h0; simp at hxl
  · rw [if_neg h0] at hxl
    obtain ⟨_, hkey⟩ := List.mem_filter.mp hxl
    have : lens.getD x 0 = l := by simpa using hkey
    rw [this]
    have : l < 16 := List.mem_range.mp hl
    omega

theorem canonOrder_sorted (lens : List Nat) :
    List.Pairwise (fun a b => lens.getD a 0 ≤ lens.getD b 0) (canonOrder lens) := by
  unfold canonOrder
  have hjoin : (List.range 16).flatMap (fun l =>
      if l = 0 then [] else (List.range lens.length).filter (fun s => lens.getD s 0 == l)) =
      ((List.range 16).map (fun l =>
        if l = 0 then [] else (List.range lens.length).filter (fun s => lens.getD s 0 == l))).flatten := rfl
  rw [hjoin, List.pairwise_flatten]
  have hchunk : ∀ l : Nat, ∀ x ∈ (if l = 0 then [] else
      (List.range lens.length).filter (fun s => lens.getD s 0 == l)), lens.getD x 0 = l := by
    intro l x hx
    by_cases h0 : l = 0
    · subst h0; simp at hx
    · rw [if_neg h0] at hx
      simpa using (List.mem_filter.mp hx).2
  constructor
  · intro c hc
    obtain ⟨l, _, rfl⟩ := List.mem_map.mp hc
    apply List.pairwise_of_forall_mem_list
    intro a ha b hb
    rw [hchunk l a ha, hchunk l b hb]
  · have := List.pairwise_lt_range 16
    refine List.Pairwise.map _ ?_ this
    intro a b hab x hx y hy
    rw [hchunk a x hx, hchunk b y hy]
    omega

theorem symMatches_iff_q (lens : List Nat) (bits : List Bool) (w x : Nat)
    (hw : w ≤ bits.length) (hx1 : 1 ≤ lens.getD x 0) (hxw : lens.getD x 0 ≤ w) :
    symMatches lens bits x =
      (decide (lens.getD x 0 ≤ w) &&
        (bitsVal (bits.take w) % 2 ^ (lens.getD x 0) == bitsVal (codeBits lens x))) := by
  have hkb : lens.getD x 0 ≤ bits.length := le_trans hxw hw
  have hmod := bitsVal_take_mod bits (lens.getD x 0) w hxw hw
  rw [Bool.eq_iff_iff]
  simp only [symMatches, Bool.and_eq_true, decide_eq_true_eq, beq_iff_eq, hmod]
  constructor
  · rintro ⟨⟨_, _⟩, h3⟩
    exact ⟨hxw, by rw [h3]⟩
  · rintro ⟨_, h2⟩
    refine ⟨⟨hx1, hkb⟩, ?_⟩
    apply bitsVal_inj
    · rw [List.length_take, codeBits_length]
      omega
    · exact h2

theorem decodeSymTable_eq (w : Nat) (lens : List Nat) (bits : List Bool) :
    decodeSymTable w lens bits = decodeSym lens bits := by
  unfold decodeSymTable
  by_cases hlen : bits.length < w
  · simp [hlen]
  · have hw : w ≤ bits.length := by omega
    simp only [hlen, if_false]
    have htklen : (bits.take w).length = w := by
      rw [List.length_take]
      omega
    have hii : bitsVal (bits.take w) % 2 ^ w = bitsVal (bits.take w) :=
      Nat.mod_eq_of_lt (by simpa [htklen] using bitsVal_lt (bits.take w))
    have hrel := find?_table_rel (fun x => lens.getD x 0) w (canonOrder lens)
      (fun sym => symMatches lens bits sym)
      (fun sym => decide (lens.getD sym 0 ≤ w) &&
        (bitsVal (bits.take w) % 2 ^ (lens.getD sym 0) == bitsVal (codeBits lens sym)))
      (canonOrder_sorted lens)
      (fun x hx hxw => symMatches_iff_q lens bits w x hw (canonOrder_key hx).1 hxw)
      (fun x _ hxw => by
        have hxw2 : w < lens.getD x 0 := hxw
        have hno : (decide (lens.getD x 0 ≤ w)) = false := by
          rw [decide_eq_false_iff_not]
          omega
        show (decide (lens.getD x 0 ≤ w) &&
          (bitsVal (List.take w bits) % 2 ^ lens.getD x 0 == bitsVal (codeBits lens x))) = false
        rw [hno, Bool.false_and])
    cases hfp : (canonOrder lens).find? (fun sym => symMatches lens bits sym) with
    | some s =>
      have hmem := List.mem_of_find?_eq_some hfp
      have hps := List.find?_some hfp
      simp only [symMatches, Bool.and_eq_true, decide_eq_true_eq] at hps
      obtain ⟨⟨hs1, hsb⟩, hstake⟩ := hps
      have hds : decodeSym lens bits = .found s (lens.getD s 0) := by
        unfold decodeSym
        rw [hfp]
      by_cases hsw : lens.getD s 0 ≤ w
      · have hfq := hrel.2.1 s hfp hsw
        have htab : tableEntry w lens (bitsVal (bits.take w)) = .lit s (lens.getD s 0) := by
          unfold tableEntry
          rw [hfq]
        rw [htab, hds]
      · have hws : w < lens.getD s 0 := by omega
        have hfq := hrel.2.2 s hfp hws
        have hcw : (codeBits lens s).take w = bits.take w := by
          rw [← hstake, List.take_take]
          congr 1
          omega
        have htab : tableEntry w lens (bitsVal (bits.take w)) = .secondary := by
          unfold tableEntry
          rw [hfq]
          rw [if_pos]
          apply List.any_eq_true.mpr
          refine ⟨s, hmem, ?_⟩
          simp only [Bool.and_eq_true, decide_eq_true_eq, beq_iff_eq]
          exact ⟨hws, by rw [hii, hcw]⟩
        rw [htab, hds]
    | none =>
      have hfq := hrel.1 hfp
      by_cases hshort : ((canonOrder lens).any (fun sym =>
          decide (bits.length < lens.getD sym 0) &&
            decide ((codeBits lens sym).take bits.length = bits))) = true
      · have hds : decodeSym lens bits = .short := by
          unfold decodeSym
          rw [hfp, if_pos hshort]
        obtain ⟨s, hmem, hsp⟩ := List.any_eq_true.mp hshort
        simp only [Bool.and_eq_true, decide_eq_true_eq] at hsp
        obtain ⟨hsl, hscode⟩ := hsp
        have hws : w < lens.getD s 0 := by omega
        have hcw : (codeBits lens s).take w = bits.take w := by
          have h1 : ((codeBits lens s).take bits.length).take w = (codeBits lens s).take w := by
            rw [List.take_take]
            congr 1
            omega
          rw [← h1, hscode]
        have htab : tableEntry w lens (bitsVal (bits.take w)) = .secondary := by
          unfold tableEntry
          rw [hfq]
          rw [if_pos]
          apply List.any_eq_true.mpr
          refine ⟨s, hmem, ?_⟩
          simp only [Bool.and_eq_true, decide_eq_true_eq, beq_iff_eq]
          exact ⟨hws, by rw [hii, hcw]⟩
        rw [htab, hds]
      · have hds : decodeSym lens bits = .bad := by
          unfold decodeSym
          rw [hfp, if_neg hshort]
        by_cases hq2 : ((canonOrder lens).any (fun sym =>
            decide (w < lens.getD sym 0) &&
              (bitsVal (bits.take w) % 2 ^ w == bitsVal ((codeBits lens sym).take w)))) = true
        · have htab : tableEntry w lens (bitsVal (bits.take w)) = .secondary := by
            unfold tableEntry
            rw [hfq, if_pos hq2]
          rw [htab]
        · have htab : tableEntry w lens (bitsVal (bits.take w)) = .invalidEntry := by
            unfold tableEntry
            rw [hfq, if_neg hq2]
          rw [htab, hds]

theorem step_width_irrelevant (litW distW litW2 distW2 : Nat) (e : Engine) (room : Option Nat) :
    step litW distW e room = step litW2 distW2 e room := by
  unfold step
  simp only [decodeSymTable_eq]

theorem runBody_congr (litW distW litW2 distW2 : Nat)
    (r r2 : Engine → List Nat → Option Nat → Bool →
      Option (Except DecompressionError (Engine × Nat × List Nat)))
    (hr : ∀ e inp room eof, r e inp room eof = r2 e inp room eof)
    (e : Engine) (inp : List Nat) (room : Option Nat) (eof : Bool) :
    runBody litW distW r e inp room eof = runBody litW2 distW2 r2 e inp room eof := by
  unfold runBody
  by_cases hd : e.phase = .done
  · simp [hd]
  · simp only [if_neg hd]
    rw [← step_width_irrelevant litW distW litW2 distW2 e room]
    cases hstep : step litW distW e room with
    | none => rfl
    | some sr =>
      cases sr with
      | fail err => rfl
      | flush e1 out => rfl
      | needOutput => rfl
      | next e1 out =>
        dsimp only
        rw [hr]
      | needInput =>
        cases inp with
        | nil => rfl
        | cons b rest =>
          dsimp only
          rw [hr]

theorem runLoop_width_irrelevant (litW distW litW2 distW2 : Nat) :
    ∀ f e inp room eof,
      runLoop litW distW f e inp room eof = runLoop litW2 distW2 f e inp room eof := by
  intro f
  induction f with
  | zero => intro e inp room eof; rfl
  | succ f ih =>
    intro e inp room eof
    exact runBody_congr litW distW litW2 distW2 _ _ ih e inp room eof

/-- **C1**: decompressing with the large-table configuration (litlen/dist
table sizes 4096/512, the default `Decompressor::new`) and with the
small-table configuration (512/128, `Decompressor::for_small_input`)
yields identical results for every input byte sequence - in particular
both succeed with identical decompressed bytes or both fail. -/
theorem claim_C1_table_size_invariance (input : List Nat) :
    inflateWithTableSizes 4096 512 input = inflateWithTableSizes 512 128 input := by
  unfold inflateWithTableSizes inflateCore readEngine
  rw [runLoop_width_irrelevant (Nat.log2 4096) (Nat.log2 512) (Nat.log2 512) (Nat.log2 128)]

theorem replay_length : ∀ (m : Nat) (hist : List Nat) (dist : Nat) (out : List Nat),
    replay hist dist m = some out → out.length = m := by
  intro m
  induction m with
  | zero =>
    intro hist dist out h
    simp only [replay, Option.some.injEq] at h
    subst h
    rfl
  | succ m ih =>
    intro hist dist out h
    unfold replay at h
    split at h
    · cases h
    · rename_i b hb
      split at h
      · cases h
      · rename_i rest hrest
        simp only [Option.some.injEq] at h
        subst h
        simp [ih _ _ _ hrest]

theorem step_out_le (litW distW : Nat) (e : Engine) (r : Nat) (sr : StepRes)
    (h : step litW distW e (some r) = some sr) : (stepOutBytes sr).length ≤ r := by
  unfold step at h
  cases hp : e.phase <;> rw [hp] at h <;> dsimp only at h
  case blockHeader =>
    split at h
    · injection h with h2; subst h2; simp [stepOutBytes]
    · split at h <;> (injection h with h2; subst h2; simp [stepOutBytes])
  case storedHeader =>
    split at h
    · injection h with h2; subst h2; simp [stepOutBytes]
    · split at h
      · split at h <;> (injection h with h2; subst h2; simp [stepOutBytes])
      · injection h with h2; subst h2; simp [stepOutBytes]
  case storedCopy n =>
    split at h
    · injection h with h2; subst h2; simp [stepOutBytes]
    · split at h
      · injection h with h2; subst h2; simp [stepOutBytes]
      · rename_i hro hl8
        injection h with h2; subst h2
        simp only [stepOutBytes, List.length_singleton]
        simp [roomHas] at hro
        omega
  case dynHeader =>
    split at h
    · injection h with h2; subst h2; simp [stepOutBytes]
    · split at h <;> (injection h with h2; subst h2; simp [stepOutBytes])
  case dynCodeLens nlit ndist nclen acc =>
    split at h
    · injection h with h2; subst h2; simp [stepOutBytes]
    · split at h
      · split at h <;> (injection h with h2; subst h2; simp [stepOutBytes])
      · injection h with h2; subst h2; simp [stepOutBytes]
  case dynLens clLens nlit ndist acc =>
    split at h
    · injection h with h2; subst h2; simp [stepOutBytes]
    · injection h with h2; subst h2; simp [stepOutBytes]
    · rename_i sym len
      split at h
      · injection h with h2; subst h2
        unfold dynLensPush
        split
        · simp [stepOutBytes]
        · split
          · split <;> simp [stepOutBytes]
          · simp [stepOutBytes]
      · split at h
        · split at h
          · injection h with h2; subst h2; simp [stepOutBytes]
          · split at h
            · injection h with h2; subst h2; simp [stepOutBytes]
            · injection h with h2; subst h2
              unfold dynLensPush
              split
              · simp [stepOutBytes]
              · split
                · split <;> simp [stepOutBytes]
                · simp [stepOutBytes]
        · split at h
          · split at h
            · injection h with h2; subst h2; simp [stepOutBytes]
            · injection h with h2; subst h2
              unfold dynLensPush
              split
              · simp [stepOutBytes]
              · split
                · split <;> simp [stepOutBytes]
                · simp [stepOutBytes]
          · split at h
            · injection h with h2; subst h2; simp [stepOutBytes]
            · injection h with h2; subst h2
              unfold dynLensPush
              split
              · simp [stepOutBytes]
              · split
                · split <;> simp [stepOutBytes]
                · simp [stepOutBytes]
  case symbolLoop litLens distLens =>
    split at h
    · injection h with h2; subst h2; simp [stepOutBytes]
    · injection h with h2; subst h2; simp [stepOutBytes]
    · rename_i sym len
      split at h
      · split at h
        · injection h with h2; subst h2; simp [stepOutBytes]
        · rename_i hro
          injection h with h2; subst h2
          simp only [stepOutBytes, List.length_singleton]
          simp [roomHas] at hro
          omega
      · split at h
        · injection h with h2; subst h2; simp [stepOutBytes]
        · split at h
          · split at h
            · injection h with h2; subst h2; simp [stepOutBytes]
            · split at h
              · injection h with h2; subst h2; simp [stepOutBytes]
              · injection h with h2; subst h2; simp [stepOutBytes]
              · split at h
                · split at h
                  · injection h with h2; subst h2; simp [stepOutBytes]
                  · injection h with h2; subst h2; simp [stepOutBytes]
                · injection h with h2; subst h2; simp [stepOutBytes]
          · injection h with h2; subst h2; simp [stepOutBytes]
  case backRef litLens distLens len dist =>
    split at h
    · injection h with h2; subst h2; simp [stepOutBytes]
    · split at h
      · injection h with h2; subst h2; simp [stepOutBytes]
      · split at h
        · cases h
        · rename_i out0 hout0
          split at h <;>
            (injection h with h2; subst h2;
             simp only [stepOutBytes];
             rw [replay_length _ _ _ _ hout0];
             simp only [roomCap];
             omega)
  case checkTrailer =>
    split at h
    · injection h with h2; subst h2; simp [stepOutBytes]
    · split at h <;> (injection h with h2; subst h2; simp [stepOutBytes])
  case done =>
    injection h with h2; subst h2; simp [stepOutBytes]

theorem runLoop_bounds (litW distW : Nat) :
    ∀ f e inp room eof e2 c o,
      runLoop litW distW f e inp room eof = some (Except.ok (e2, c, o)) →
      c ≤ inp.length ∧ ∀ r, room = some r → o.length ≤ r := by
  intro f
  induction f with
  | zero => intro e inp room eof e2 c o h; cases h
  | succ f ih =>
    intro e inp room eof e2 c o h
    rw [runLoop] at h
    unfold runBody at h
    by_cases hd : e.phase = .done
    · rw [if_pos hd] at h
      simp only [Option.some.injEq, Except.ok.injEq, Prod.mk.injEq] at h
      obtain ⟨h1, h2, h3⟩ := h
      subst h2; subst h3
      exact ⟨Nat.zero_le _, fun r hr => by simp⟩
    · rw [if_neg hd] at h
      revert h
      cases hstep : step litW distW e room with
      | none => intro h; cases h
      | some sr =>
        cases sr with
        | fail err => intro h; simp at h
        | needOutput =>
          intro h
          simp only [Option.some.injEq, Except.ok.injEq, Prod.mk.injEq] at h
          obtain ⟨h1, h2, h3⟩ := h
          subst h2; subst h3
          exact ⟨Nat.zero_le _, fun r hr => by simp⟩
        | flush e1 out =>
          intro h
          simp only [Option.some.injEq, Except.ok.injEq, Prod.mk.injEq] at h
          obtain ⟨h1, h2, h3⟩ := h
          subst h2; subst h3
          refine ⟨Nat.zero_le _, fun r hr => ?_⟩
          subst hr
          have hle := step_out_le litW distW e r (.flush e1 out) hstep
          simpa [stepOutBytes] using hle
        | next e1 out =>
          intro h
          dsimp only at h
          cases hrec : runLoop litW distW f e1 inp (roomSub room out.length) eof with
          | none => rw [hrec] at h; cases h
          | some res =>
            cases res with
            | error err => rw [hrec] at h; simp at h
            | ok v =>
              obtain ⟨e3, c3, o3⟩ := v
              rw [hrec] at h
              simp only [Option.some.injEq, Except.ok.injEq, Prod.mk.injEq] at h
              obtain ⟨h1, h2, h3⟩ := h
              subst h2; subst h3
              obtain ⟨hc3, ho3⟩ := ih e1 inp (roomSub room out.length) eof e3 c3 o3 hrec
              refine ⟨hc3, fun r hr => ?_⟩
              subst hr
              have hout := step_out_le litW distW e r (.next e1 out) hstep
              simp only [stepOutBytes] at hout
              have h3r := ho3 (r - out.length) (by simp [roomSub])
              simp only [List.length_append]
              omega
        | needInput =>
          cases inp with
          | nil =>
            intro h
            dsimp only at h
            split at h
            · split at h
              · simp only [Option.some.injEq, Except.ok.injEq, Prod.mk.injEq] at h
                obtain ⟨h1, h2, h3⟩ := h
                subst h2; subst h3
                exact ⟨Nat.zero_le _, fun r hr => by simp⟩
              · cases h
            · simp only [Option.some.injEq, Except.ok.injEq, Prod.mk.injEq] at h
              obtain ⟨h1, h2, h3⟩ := h
              subst h2; subst h3
              exact ⟨Nat.zero_le _, fun r hr => by simp⟩
          | cons b rest =>
            intro h
            dsimp only at h
            cases hrec : runLoop litW distW f
                { e with bitbuf := e.bitbuf ++ byteBits b } rest room eof with
            | none => rw [hrec] at h; cases h
            | some res =>
              cases res with
              | error err => rw [hrec] at h; simp at h
              | ok v =>
                obtain ⟨e3, c3, o3⟩ := v
                rw [hrec] at h
                simp only [Option.some.injEq, Except.ok.injEq, Prod.mk.injEq] at h
                obtain ⟨h1, h2, h3⟩ := h
                subst h2; subst h3
                obtain ⟨hc3, ho3⟩ := ih _ rest room eof e3 c3 o3 hrec
                exact ⟨by simpa using Nat.succ_le_succ hc3, ho3⟩

/-- **C7**: every successful `read(input, output, output_offset,
end_of_input)` call returns a pair (bytes consumed, bytes produced) with
the consumed count at most the input length and the produced count at most
`output.len() - output_offset` (the available room); zero progress on
either side is a possible outcome. -/
theorem claim_C7_read_bounds (litW distW : Nat) (e : Engine) (input : List Nat)
    (outLen outOff : Nat) (eof : Bool) (e2 : Engine) (c : Nat) (o : List Nat)
    (h : readEngine litW distW e input (some (outLen - outOff)) eof =
      some (Except.ok (e2, c, o))) :
    c ≤ input.length ∧ o.length ≤ outLen - outOff := by
  obtain ⟨hc, ho⟩ := runLoop_bounds litW distW (fuelFor e input) e input
    (some (outLen - outOff)) eof e2 c o h
  exact ⟨hc, ho _ rfl⟩

theorem claim_C7_witness :
    readEngine 12 9 (initEngine false) [] (some (10 - 2)) false =
      some (Except.ok (initEngine false, 0, [])) ∧
    (0 ≤ ([] : List Nat).length ∧ ([] : List Nat).length ≤ 10 - 2) := by
  have h : readEngine 12 9 (initEngine false) [] (some (10 - 2)) false =
      some (Except.ok (initEngine false, 0, [])) := by rfl
  exact ⟨h, Nat.zero_le _, (claim_C7_read_bounds 12 9 (initEngine false) [] 10 2 false
    (initEngine false) 0 [] h).2⟩

theorem step_backRef_invalid (litW distW : Nat) (e : Engine) (room : Option Nat)
    (litLens distLens : List Nat) (len dist : Nat)
    (hp : e.phase = .backRef litLens distLens len dist)
    (hroom : roomHas room = true)
    (hdist : e.history.length < dist) :
    step litW distW e room = some (.fail .InvalidDistance) := by
  unfold step
  rw [hp]
  dsimp only
  rw [if_neg (by simp [hroom]), if_pos (Or.inr hdist)]

/-- **C4**: whenever the engine is about to replay a back-reference whose
distance exceeds the total number of bytes emitted so far across the whole
stream (the length of the emitted history), `read` returns the
invalid-back-reference-distance error; the guarded replay performs no
out-of-bounds history access. -/
theorem claim_C4_invalid_distance (litW distW : Nat) (e : Engine) (inp : List Nat)
    (room : Option Nat) (eof : Bool) (litLens distLens : List Nat) (len dist : Nat)
    (hp : e.phase = .backRef litLens distLens len dist)
    (hroom : roomHas room = true)
    (hdist : e.history.length < dist) :
    readEngine litW distW e inp room eof = some (Except.error .InvalidDistance) := by
  unfold readEngine
  have hfuel : fuelFor e inp = (2 * e.bitbuf.length + 17 * inp.length + 3) + 1 := by
    unfold fuelFor
    omega
  rw [hfuel, runLoop]
  unfold runBody
  rw [if_neg (by rw [hp]; exact fun hc => Phase.noConfusion hc)]
  rw [step_backRef_invalid litW distW e room litLens distLens len dist hp hroom hdist]

theorem claim_C4_witness :
    (⟨Phase.backRef [] [] 3 5, [], [7, 8], (1, 0), false, true⟩ : Engine).phase =
      Phase.backRef [] [] 3 5 ∧
    (⟨Phase.backRef [] [] 3 5, [], [7, 8], (1, 0), false, true⟩ : Engine).history.length < 5 ∧
    readEngine 12 9 (⟨Phase.backRef [] [] 3 5, [], [7, 8], (1, 0), false, true⟩ : Engine)
      [] none false = some (Except.error .InvalidDistance) :=
  ⟨rfl, by decide,
    claim_C4_invalid_distance 12 9 _ [] none false [] [] 3 5 rfl rfl (by decide)⟩

theorem byteBits_length (b : Nat) : (byteBits b).length = 8 := by
  simp [byteBits]

theorem replay_ne_none : ∀ (m : Nat) (hist : List Nat) (dist : Nat),
    1 ≤ dist → dist ≤ hist.length → replay hist dist m ≠ none := by
  intro m
  induction m with
  | zero => intro hist dist _ _; simp [replay]
  | succ m ih =>
    intro hist dist h1 h2
    unfold replay
    cases hget : hist.get? (dist - 1) with
    | none =>
      rw [List.get?_eq_none] at hget
      omega
    | some b =>
      try rw [hget]
      cases hrep : replay (b :: hist) dist m with
      | none => exact absurd hrep (ih (b :: hist) dist h1 (by simp; omega))
      | some rest => simp [hrep]

theorem decodeSym_found (lens : List Nat) (bits : List Bool) (sym len : Nat)
    (h : decodeSym lens bits = .found sym len) : 1 ≤ len ∧ len ≤ bits.length := by
  unfold decodeSym at h
  split at h
  · rename_i s hfind
    injection h with h1 h2
    subst h1
    subst h2
    have hm := List.find?_some hfind
    simp only [symMatches, Bool.and_eq_true, decide_eq_true_eq] at hm
    exact ⟨hm.1.1, hm.1.2⟩
  · split at h <;> cases h

theorem decodeSymTable_found (w : Nat) (lens : List Nat) (bits : List Bool) (sym len : Nat)
    (h : decodeSymTable w lens bits = .found sym len) : 1 ≤ len ∧ len ≤ bits.length := by
  rw [decodeSymTable_eq] at h
  exact decodeSym_found lens bits sym len h

theorem measure_lt_of_bit_lt {e e1 : Engine} (h : e1.bitbuf.length < e.bitbuf.length) :
    2 * e1.bitbuf.length + brFlag e1 < 2 * e.bitbuf.length + brFlag e := by
  have h1 : brFlag e1 ≤ 1 := by unfold brFlag; split <;> omega
  omega

theorem step_ne_none (litW distW : Nat) (e : Engine) (room : Option Nat) :
    step litW distW e room ≠ none := by
  unfold step
  cases hp : e.phase <;> dsimp only
  case blockHeader =>
    split
    · simp
    · split <;> simp
  case storedHeader =>
    split
    · simp
    · split
      · split <;> simp
      · simp
  case storedCopy n =>
    split
    · simp
    · split <;> simp
  case dynHeader =>
    split
    · simp
    · split <;> simp
  case dynCodeLens nlit ndist nclen acc =>
    split
    · simp
    · split
      · split <;> simp
      · simp
  case dynLens clLens nlit ndist acc =>
    split
    · simp
    · simp
    · split
      · simp
      · split
        · split
          · simp
          · split <;> simp
        · split
          · split <;> simp
          · split <;> simp
  case symbolLoop litLens distLens =>
    split
    · simp
    · simp
    · split
      · split <;> simp
      · split
        · simp
        · split
          · split
            · simp
            · split
              · simp
              · simp
              · split
                · split <;> simp
                · simp
          · simp
  case backRef litLens distLens len dist =>
    split
    · simp
    · split
      · simp
      · rename_i hro hvalid
        cases hrep : replay e.history dist (roomCap room len) with
        | none =>
          exfalso
          push_neg at hvalid
          exact replay_ne_none (roomCap room len) e.history dist (by omega) (by omega) hrep
        | some out =>
          simp only [hrep]
          split <;> simp
  case checkTrailer =>
    split
    · simp
    · split <;> simp
  case done => simp

theorem step_next_measure (litW distW : Nat) (e : Engine) (room : Option Nat)
    (e1 : Engine) (out : List Nat) (h : step litW distW e room = some (.next e1 out))
    (hd : e.phase ≠ .done) :
    2 * e1.bitbuf.length + brFlag e1 < 2 * e.bitbuf.length + brFlag e := by
  unfold step at h
  cases hp : e.phase <;> rw [hp] at h <;> dsimp only at h
  case blockHeader =>
    split at h
    · simp at h
    · split at h <;>
        first
        | (injection h with h2; injection h2 with h3 h4; subst h3; apply measure_lt_of_bit_lt;
           simp [emit, List.length_drop]; omega)
        | simp at h
  case storedHeader =>
    split at h
    · simp at h
    · split at h
      · split at h <;>
          (injection h with h2; injection h2 with h3 h4; subst h3; apply measure_lt_of_bit_lt;
           simp [emit, List.length_drop]; omega)
      · simp at h
  case storedCopy n =>
    split at h
    · simp at h
    · split at h
      · simp at h
      · injection h with h2
        injection h2 with h3 h4
        subst h3
        apply measure_lt_of_bit_lt
        simp [emit, List.length_drop]
        omega
  case dynHeader =>
    split at h
    · simp at h
    · split at h
      · injection h with h2
        injection h2 with h3 h4
        subst h3
        apply measure_lt_of_bit_lt
        simp [emit, List.length_drop]
        omega
      · simp at h
  case dynCodeLens nlit ndist nclen acc =>
    split at h
    · simp at h
    · split at h
      · split at h
        · injection h with h2
          injection h2 with h3 h4
          subst h3
          apply measure_lt_of_bit_lt
          simp [emit, List.length_drop]
          omega
        · simp at h
      · injection h with h2
        injection h2 with h3 h4
        subst h3
        apply measure_lt_of_bit_lt
        simp [emit, List.length_drop]
        omega
  case dynLens clLens nlit ndist acc =>
    split at h
    · simp at h
    · simp at h
    · rename_i sym len hfound
      obtain ⟨hl1, hl2⟩ := decodeSym_found _ _ _ _ hfound
      split at h
      · injection h with h2
        unfold dynLensPush at h2
        split at h2
        · cases h2
        · split at h2
          · split at h2
            · injection h2 with h3 h4; subst h3
              apply measure_lt_of_bit_lt
              simp [List.length_drop]
              omega
            · cases h2
          · injection h2 with h3 h4; subst h3
            apply measure_lt_of_bit_lt
            simp [List.length_drop]
            omega
      · split at h
        · split at h
          · simp at h
          · split at h
            · simp at h
            · injection h with h2
              unfold dynLensPush at h2
              split at h2
              · cases h2
              · split at h2
                · split at h2
                  · injection h2 with h3 h4; subst h3
                    apply measure_lt_of_bit_lt
                    simp [List.length_drop]
                    omega
                  · cases h2
                · injection h2 with h3 h4; subst h3
                  apply measure_lt_of_bit_lt
                  simp [List.length_drop]
                  omega
        · split at h
          · split at h
            · simp at h
            · injection h with h2
              unfold dynLensPush at h2
              split at h2
              · cases h2
              · split at h2
                · split at h2
                  · injection h2 with h3 h4; subst h3
                    apply measure_lt_of_bit_lt
                    simp [List.length_drop]
                    omega
                  · cases h2
                · injection h2 with h3 h4; subst h3
                  apply measure_lt_of_bit_lt
                  simp [List.length_drop]
                  omega
          · split at h
            · simp at h
            · injection h with h2
              unfold dynLensPush at h2
              split at h2
              · cases h2
              · split at h2
                · split at h2
                  · injection h2 with h3 h4; subst h3
                    apply measure_lt_of_bit_lt
                    simp [List.length_drop]
                    omega
                  · cases h2
                · injection h2 with h3 h4; subst h3
                  apply measure_lt_of_bit_lt
                  simp [List.length_drop]
                  omega
  case symbolLoop litLens distLens =>
    split at h
    · simp at h
    · simp at h
    · rename_i sym len hfound
      obtain ⟨hl1, hl2⟩ := decodeSymTable_found _ _ _ _ _ hfound
      split at h
      · split at h
        · simp at h
        · injection h with h2
          injection h2 with h3 h4
          subst h3
          apply measure_lt_of_bit_lt
          simp [emit, List.length_drop]
          omega
      · split at h
        · injection h with h2
          injection h2 with h3 h4
          subst h3
          apply measure_lt_of_bit_lt
          simp [emit, List.length_drop]
          omega
        · split at h
          · split at h
            · simp at h
            · split at h
              · simp at h
              · simp at h
              · rename_i dsym dlen hdfound
                obtain ⟨hd1, hd2⟩ := decodeSymTable_found _ _ _ _ _ hdfound
                simp only [List.length_drop] at hd2
                split at h
                · split at h
                  · simp at h
                  · injection h with h2
                    injection h2 with h3 h4
                    subst h3
                    apply measure_lt_of_bit_lt
                    simp [emit, List.length_drop]
                    omega
                · simp at h
          · simp at h
  case backRef litLens distLens len dist =>
    split at h
    · simp at h
    · split at h
      · simp at h
      · split at h
        · cases h
        · rename_i out0 hout0
          split at h
          · injection h with h2
            injection h2 with h3 h4
            subst h3
            have hb : brFlag e = 1 := by simp [brFlag, hp]
            have hb1 : brFlag ({ emit e out0 with phase := .symbolLoop litLens distLens }) = 0 := by
              simp [brFlag]
            have hbb : ({ emit e out0 with
                phase := .symbolLoop litLens distLens } : Engine).bitbuf = e.bitbuf := by
              simp [emit]
            rw [hb, hb1, hbb]
            omega
          · simp at h
  case checkTrailer =>
    split at h
    · simp at h
    · split at h
      · injection h with h2
        injection h2 with h3 h4
        subst h3
        apply measure_lt_of_bit_lt
        simp [emit, List.length_drop]
        omega
      · simp at h
  case done => exact absurd hp hd

theorem runLoop_ne_none (litW distW : Nat) :
    ∀ f e inp room eof,
      2 * e.bitbuf.length + brFlag e + 17 * inp.length < f →
      runLoop litW distW f e inp room eof ≠ none := by
  intro f
  induction f with
  | zero => intro e inp room eof hm; omega
  | succ f ih =>
    intro e inp room eof hm
    rw [runLoop]
    unfold runBody
    by_cases hd : e.phase = .done
    · simp [hd]
    · rw [if_neg hd]
      cases hstep : step litW distW e room with
      | none => exact absurd hstep (step_ne_none litW distW e room)
      | some sr =>
        cases sr with
        | fail err => simp
        | flush e1 out => simp
        | needOutput => simp
        | next e1 out =>
          dsimp only
          have hmea := step_next_measure litW distW e room e1 out hstep hd
          cases hrec : runLoop litW distW f e1 inp (roomSub room out.length) eof with
          | none =>
            exact absurd hrec (ih e1 inp (roomSub room out.length) eof (by omega))
          | some res =>
            cases res with
            | error err => simp
            | ok v => obtain ⟨e3, c3, o3⟩ := v; simp
        | needInput =>
          dsimp only
          cases inp with
          | nil =>
            dsimp only
            split
            · split <;> simp
            · simp
          | cons b rest =>
            dsimp only
            have hbr : brFlag { e with bitbuf := e.bitbuf ++ byteBits b } = brFlag e := by
              simp [brFlag]
            have hlen : ({ e with bitbuf := e.bitbuf ++ byteBits b } : Engine).bitbuf.length =
                e.bitbuf.length + 8 := by
              simp [byteBits_length]
            have hm1 : (b :: rest).length = rest.length + 1 := by simp
            rw [hm1] at hm
            have hm2 : 2 * ({ e with bitbuf := e.bitbuf ++ byteBits b } : Engine).bitbuf.length +
                brFlag { e with bitbuf := e.bitbuf ++ byteBits b } + 17 * rest.length < f := by
              rw [hbr, hlen]
              omega
            cases hrec : runLoop litW distW f
                { e with bitbuf := e.bitbuf ++ byteBits b } rest room eof with
            | none => exact absurd hrec (ih _ rest room eof hm2)
            | some res =>
              cases res with
              | error err => simp
              | ok v => obtain ⟨e3, c3, o3⟩ := v; simp

/-- **C3**: for every engine state, input slice, output room and
end-of-input flag, `read` returns a value: the loop's fuel always
suffices, every history access of the back-reference replay is guarded by
the distance validation, and every failure is one of the
`DecompressionError` values (the result type admits nothing else).
Construction (`initEngine`), `is_done` (`phase = done`) and
`ignore_adler32` are total by definition. -/
theorem claim_C3_read_total (litW distW : Nat) (e : Engine) (input : List Nat)
    (room : Option Nat) (eof : Bool) :
    ∃ res : Except DecompressionError (Engine × Nat × List Nat),
      readEngine litW distW e input room eof = some res := by
  have hbr : brFlag e ≤ 1 := by unfold brFlag; split <;> omega
  have hmea : 2 * e.bitbuf.length + brFlag e + 17 * input.length < fuelFor e input := by
    unfold fuelFor
    omega
  have h := runLoop_ne_none litW distW (fuelFor e input) e input room eof hmea
  unfold readEngine
  cases hr : runLoop litW distW (fuelFor e input) e input room eof with
  | none => exact absurd hr h
  | some res => exact ⟨res, rfl⟩

theorem runLoop_mono (litW distW : Nat) :
    ∀ f g e inp room eof res, f ≤ g →
      runLoop litW distW f e inp room eof = some res →
      runLoop litW distW g e inp room eof = some res := by
  intro f
  induction f with
  | zero => intro g e inp room eof res _ h; cases h
  | succ f ih =>
    intro g e inp room eof res hle h
    obtain ⟨g, rfl⟩ : ∃ g1, g = g1 + 1 := ⟨g - 1, by omega⟩
    have hle1 : f ≤ g := by omega
    rw [runLoop] at h ⊢
    unfold runBody at h ⊢
    by_cases hd : e.phase = .done
    · rw [if_pos hd] at h ⊢; exact h
    · rw [if_neg hd] at h ⊢
      cases hstep : step litW distW e room with
      | none => rw [hstep] at h; dsimp only at h; cases h
      | some sr =>
        rw [hstep] at h
        cases sr with
        | fail err => exact h
        | flush e1 out => exact h
        | needOutput => exact h
        | next e1 out =>
          dsimp only at h ⊢
          cases hrec : runLoop litW distW f e1 inp (roomSub room out.length) eof with
          | none => rw [hrec] at h; cases h
          | some r1 =>
            rw [hrec] at h
            rw [ih g e1 inp (roomSub room out.length) eof r1 hle1 hrec]
            exact h
        | needInput =>
          dsimp only at h ⊢
          cases inp with
          | nil => exact h
          | cons b rest =>
            dsimp only at h ⊢
            cases hrec : runLoop litW distW f
                { e with bitbuf := e.bitbuf ++ byteBits b } rest room eof with
            | none => rw [hrec] at h; cases h
            | some r1 =>
              rw [hrec] at h
              rw [ih g _ rest room eof r1 hle1 hrec]
              exact h

theorem runLoop_uniq (litW distW f g : Nat) (e : Engine) (inp : List Nat)
    (room : Option Nat) (eof : Bool)
    (res res2 : Except DecompressionError (Engine × Nat × List Nat))
    (h1 : runLoop litW distW f e inp room eof = some res)
    (h2 : runLoop litW distW g e inp room eof = some res2) : res = res2 := by
  rcases Nat.le_total f g with hle | hle
  · have h3 := runLoop_mono litW distW f g e inp room eof res hle h1
    rw [h3] at h2
    exact Option.some.inj h2
  · have h3 := runLoop_mono litW distW g f e inp room eof res2 hle h2
    rw [h3] at h1
    exact (Option.some.inj h1).symm

theorem readEngine_ne_none (litW distW : Nat) (e : Engine) (input : List Nat)
    (room : Option Nat) (eof : Bool) :
    readEngine litW distW e input room eof ≠ none := by
  have hbr : brFlag e ≤ 1 := by unfold brFlag; split <;> omega
  have hmea : 2 * e.bitbuf.length + brFlag e + 17 * input.length < fuelFor e input := by
    unfold fuelFor
    omega
  exact runLoop_ne_none litW distW (fuelFor e input) e input room eof hmea

theorem dynLensPush_shape (e : Engine) (clLens : List Nat) (nlit ndist : Nat)
    (acc2 : List Nat) (used : Nat) :
    (∃ e1, dynLensPush e clLens nlit ndist acc2 used = .next e1 []) ∨
    dynLensPush e clLens nlit ndist acc2 used = .fail .MalformedHuffmanTable := by
  unfold dynLensPush
  split
  · exact Or.inr rfl
  · split
    · split
      · exact Or.inl ⟨_, rfl⟩
      · exact Or.inr rfl
    · exact Or.inl ⟨_, rfl⟩

theorem dynLensPush_no_block (e : Engine) (clLens : List Nat) (nlit ndist : Nat)
    (acc2 : List Nat) (used : Nat) :
    dynLensPush e clLens nlit ndist acc2 used ≠ .needOutput ∧
    ∀ e1 out, dynLensPush e clLens nlit ndist acc2 used ≠ .flush e1 out := by
  rcases dynLensPush_shape e clLens nlit ndist acc2 used with ⟨e1, hdp⟩ | hdp <;>
    rw [hdp] <;> simp

theorem step_none_no_block (litW distW : Nat) (e : Engine) (sr : StepRes)
    (h : step litW distW e none = some sr) :
    sr ≠ .needOutput ∧ ∀ e1 out, sr ≠ .flush e1 out := by
  unfold step at h
  cases hp : e.phase <;> rw [hp] at h <;> dsimp only at h
  case blockHeader =>
    split at h
    · injection h with h2; subst h2; simp
    · split at h <;> (injection h with h2; subst h2; simp)
  case storedHeader =>
    split at h
    · injection h with h2; subst h2; simp
    · split at h
      · split at h <;> (injection h with h2; subst h2; simp)
      · injection h with h2; subst h2; simp
  case storedCopy n =>
    split at h
    · rename_i hro
      simp [roomHas] at hro
    · split at h <;> (injection h with h2; subst h2; simp)
  case dynHeader =>
    split at h
    · injection h with h2; subst h2; simp
    · split at h <;> (injection h with h2; subst h2; simp)
  case dynCodeLens nlit ndist nclen acc =>
    split at h
    · injection h with h2; subst h2; simp
    · split at h
      · split at h <;> (injection h with h2; subst h2; simp)
      · injection h with h2; subst h2; simp
  case dynLens clLens nlit ndist acc =>
    split at h
    · injection h with h2; subst h2; simp
    · injection h with h2; subst h2; simp
    · rename_i sym len
      split at h
      · injection h with h2; subst h2
        exact dynLensPush_no_block _ _ _ _ _ _
      · split at h
        · split at h
          · injection h with h2; subst h2; simp
          · split at h
            · injection h with h2; subst h2; simp
            · injection h with h2; subst h2
              exact dynLensPush_no_block _ _ _ _ _ _
        · split at h
          · split at h
            · injection h with h2; subst h2; simp
            · injection h with h2; subst h2
              exact dynLensPush_no_block _ _ _ _ _ _
          · split at h
            · injection h with h2; subst h2; simp
            · injection h with h2; subst h2
              exact dynLensPush_no_block _ _ _ _ _ _
  case symbolLoop litLens distLens =>
    split at h
    · injection h with h2; subst h2; simp
    · injection h with h2; subst h2; simp
    · rename_i sym len
      split at h
      · split at h
        · rename_i hro
          simp [roomHas] at hro
        · injection h with h2; subst h2; simp
      · split at h
        · injection h with h2; subst h2; simp
        · split at h
          · split at h
            · injection h with h2; subst h2; simp
            · split at h
              · injection h with h2; subst h2; simp
              · injection h with h2; subst h2; simp
              · split at h
                · split at h
                  · injection h with h2; subst h2; simp
                  · injection h with h2; subst h2; simp
                · injection h with h2; subst h2; simp
          · injection h with h2; subst h2; simp
  case backRef litLens distLens len dist =>
    split at h
    · rename_i hro
      simp [roomHas] at hro
    · split at h
      · injection h with h2; subst h2; simp
      · split at h
        · cases h
        · split at h
          · injection h with h2; subst h2; simp
          · rename_i hcap
            simp [roomCap] at hcap
  case checkTrailer =>
    split at h
    · injection h with h2; subst h2; simp
    · split at h <;> (injection h with h2; subst h2; simp)
  case done =>
    injection h with h2; subst h2; simp

theorem step_room_none (litW distW : Nat) (e : Engine) (room : Option Nat) (sr : StepRes)
    (h : step litW distW e room = some sr) :
    sr = .needOutput ∨ (∃ e1 out, sr = .flush e1 out) ∨
      step litW distW e none = some sr := by
  cases room with
  | none => exact Or.inr (Or.inr h)
  | some r =>
    unfold step at h ⊢
    cases hp : e.phase <;> rw [hp] at h <;> dsimp only at h ⊢
    case blockHeader => exact Or.inr (Or.inr h)
    case storedHeader => exact Or.inr (Or.inr h)
    case storedCopy n =>
      split at h
      · injection h with h2
        exact Or.inl h2.symm
      · refine Or.inr (Or.inr ?_)
        rw [if_neg (show ¬((!roomHas (none : Option Nat)) = true) by simp [roomHas])]
        exact h
    case dynHeader => exact Or.inr (Or.inr h)
    case dynCodeLens nlit ndist nclen acc => exact Or.inr (Or.inr h)
    case dynLens clLens nlit ndist acc => exact Or.inr (Or.inr h)
    case symbolLoop litLens distLens =>
      cases hdec : decodeSymTable litW litLens e.bitbuf with
      | short =>
        rw [hdec] at h
        dsimp only at h ⊢
        exact Or.inr (Or.inr h)
      | bad =>
        rw [hdec] at h
        dsimp only at h ⊢
        exact Or.inr (Or.inr h)
      | found sym len =>
        rw [hdec] at h
        dsimp only at h ⊢
        by_cases hs : sym < 256
        · rw [if_pos hs] at h ⊢
          split at h
          · injection h with h2
            exact Or.inl h2.symm
          · refine Or.inr (Or.inr ?_)
            rw [if_neg (show ¬((!roomHas (none : Option Nat)) = true) by simp [roomHas])]
            exact h
        · rw [if_neg hs] at h ⊢
          exact Or.inr (Or.inr h)
    case backRef litLens distLens len dist =>
      split at h
      · injection h with h2
        exact Or.inl h2.symm
      · by_cases hdist : dist = 0 ∨ e.history.length < dist
        · rw [if_pos hdist] at h
          refine Or.inr (Or.inr ?_)
          rw [if_neg (show ¬((!roomHas (none : Option Nat)) = true) by simp [roomHas]),
            if_pos hdist]
          exact h
        · rw [if_neg hdist] at h
          by_cases hcap : roomCap (some r) len = len
          · rw [hcap] at h
            refine Or.inr (Or.inr ?_)
            rw [if_neg (show ¬((!roomHas (none : Option Nat)) = true) by simp [roomHas]),
              if_neg hdist, show roomCap none len = len from rfl]
            exact h
          · cases hrep : replay e.history dist (roomCap (some r) len) with
            | none =>
              rw [hrep] at h
              dsimp only at h
              cases h
            | some out0 =>
              rw [hrep] at h
              dsimp only at h
              rw [if_neg hcap] at h
              injection h with h2
              exact Or.inr (Or.inl ⟨_, _, h2.symm⟩)
    case checkTrailer => exact Or.inr (Or.inr h)
    case done => exact Or.inr (Or.inr h)

theorem runLoop_error_extend (litW distW : Nat) :
    ∀ f e a room eofX err b eof2,
      runLoop litW distW f e a room eofX = some (Except.error err) →
      (eofX = true → b = [] ∧ eof2 = true) →
      runLoop litW distW f e (a ++ b) none eof2 = some (Except.error err) := by
  intro f
  induction f with
  | zero => intro e a room eofX err b eof2 h _; cases h
  | succ f ih =>
    intro e a room eofX err b eof2 h hside
    rw [runLoop] at h ⊢
    unfold runBody at h ⊢
    by_cases hd : e.phase = .done
    · rw [if_pos hd] at h; simp at h
    · rw [if_neg hd] at h ⊢
      cases hstep : step litW distW e room with
      | none => rw [hstep] at h; dsimp only at h; cases h
      | some sr =>
        rw [hstep] at h
        cases sr with
        | flush e1 out => dsimp only at h; simp at h
        | needOutput => dsimp only at h; simp at h
        | fail err2 =>
          dsimp only at h
          injection h with h2
          have h3 := Except.error.inj h2
          rcases step_room_none litW distW e room _ hstep with hno | ⟨e1', out', hfl⟩ | hsn
          · simp at hno
          · simp at hfl
          · rw [hsn]
            dsimp only
            rw [h3]
        | next e1 out =>
          dsimp only at h
          rcases step_room_none litW distW e room _ hstep with hno | ⟨e1', out', hfl⟩ | hsn
          · simp at hno
          · simp at hfl
          · rw [hsn]
            dsimp only
            cases hrec : runLoop litW distW f e1 a (roomSub room out.length) eofX with
            | none => rw [hrec] at h; cases h
            | some r1 =>
              rw [hrec] at h
              cases r1 with
              | ok v => obtain ⟨e2, c2, o2⟩ := v; simp at h
              | error err2 =>
                injection h with h2
                have h3 := Except.error.inj h2
                have hext := ih e1 a (roomSub room out.length) eofX err2 b eof2 hrec hside
                rw [show roomSub none out.length = none from rfl, hext, h3]
        | needInput =>
          dsimp only at h
          rcases step_room_none litW distW e room _ hstep with hno | ⟨e1', out', hfl⟩ | hsn
          · simp at hno
          · simp at hfl
          · rw [hsn]
            dsimp only
            cases a with
            | cons x a' =>
              rw [List.cons_append]
              dsimp only at h ⊢
              cases hrec : runLoop litW distW f
                  { e with bitbuf := e.bitbuf ++ byteBits x } a' room eofX with
              | none => rw [hrec] at h; cases h
              | some r1 =>
                rw [hrec] at h
                cases r1 with
                | ok v => obtain ⟨e2, c2, o2⟩ := v; simp at h
                | error err2 =>
                  injection h with h2
                  have h3 := Except.error.inj h2
                  have hext := ih { e with bitbuf := e.bitbuf ++ byteBits x } a' room eofX
                    err2 b eof2 hrec hside
                  rw [hext, h3]
            | nil =>
              cases heof : eofX with
              | false =>
                rw [heof] at h
                simp at h
              | true =>
                rw [heof] at h
                rw [if_pos rfl] at h
                obtain ⟨hb, he2⟩ := hside heof
                subst hb
                subst he2
                by_cases hct : e.phase = Phase.checkTrailer
                · rw [if_pos hct] at h
                  simp at h
                · rw [if_neg hct] at h
                  injection h with h2
                  have h3 := Except.error.inj h2
                  rw [List.nil_append]
                  dsimp only
                  rw [if_pos rfl, if_neg hct, h3]

theorem runLoop_eof_done (litW distW : Nat) :
    ∀ f e a e1 c1 o1,
      runLoop litW distW f e a none true = some (Except.ok (e1, c1, o1)) →
      e1.phase = .done := by
  intro f
  induction f with
  | zero => intro e a e1 c1 o1 h; cases h
  | succ f ih =>
    intro e a e1 c1 o1 h
    rw [runLoop] at h
    unfold runBody at h
    by_cases hd : e.phase = .done
    · rw [if_pos hd] at h
      injection h with h2
      injection h2 with h3
      injection h3 with h4 h5
      rw [← h4]
      exact hd
    · rw [if_neg hd] at h
      cases hstep : step litW distW e none with
      | none => rw [hstep] at h; cases h
      | some sr =>
        rw [hstep] at h
        cases sr with
        | fail err => dsimp only at h; simp at h
        | needOutput => exact absurd rfl ((step_none_no_block litW distW e _ hstep).1)
        | flush e2 out => exact absurd rfl ((step_none_no_block litW distW e _ hstep).2 e2 out)
        | next e2 out =>
          dsimp only at h
          rw [show roomSub none out.length = none from rfl] at h
          cases hrec : runLoop litW distW f e2 a none true with
          | none => rw [hrec] at h; cases h
          | some r1 =>
            rw [hrec] at h
            cases r1 with
            | error err => simp at h
            | ok v =>
              obtain ⟨e3, c3, o3⟩ := v
              dsimp only at h
              injection h with h2
              injection h2 with h3
              injection h3 with h4 h5
              rw [← h4]
              exact ih e2 a e3 c3 o3 hrec
        | needInput =>
          dsimp only at h
          cases a with
          | cons x a' =>
            dsimp only at h
            cases hrec : runLoop litW distW f
                { e with bitbuf := e.bitbuf ++ byteBits x } a' none true with
            | none => rw [hrec] at h; cases h
            | some r1 =>
              rw [hrec] at h
              cases r1 with
              | error err => simp at h
              | ok v =>
                obtain ⟨e3, c3, o3⟩ := v
                dsimp only at h
                injection h with h2
                injection h2 with h3
                injection h3 with h4 h5
                rw [← h4]
                exact ih _ a' e3 c3 o3 hrec
          | nil =>
            rw [if_pos rfl] at h
            by_cases hct : e.phase = Phase.checkTrailer
            · rw [if_pos hct] at h
              injection h with h2
              injection h2 with h3
              injection h3 with h4 h5
              rw [← h4]
            · rw [if_neg hct] at h
              simp at h

theorem runLoop_consume_all (litW distW : Nat) :
    ∀ f e a e1 c1 o1,
      runLoop litW distW f e a none false = some (Except.ok (e1, c1, o1)) →
      e1.phase = .done ∨ c1 = a.length := by
  intro f
  induction f with
  | zero => intro e a e1 c1 o1 h; cases h
  | succ f ih =>
    intro e a e1 c1 o1 h
    rw [runLoop] at h
    unfold runBody at h
    by_cases hd : e.phase = .done
    · rw [if_pos hd] at h
      injection h with h2
      injection h2 with h3
      injection h3 with h4 h5
      left
      rw [← h4]
      exact hd
    · rw [if_neg hd] at h
      cases hstep : step litW distW e none with
      | none => rw [hstep] at h; cases h
      | some sr =>
        rw [hstep] at h
        cases sr with
        | fail err => dsimp only at h; simp at h
        | needOutput => exact absurd rfl ((step_none_no_block litW distW e _ hstep).1)
        | flush e2 out => exact absurd rfl ((step_none_no_block litW distW e _ hstep).2 e2 out)
        | next e2 out =>
          dsimp only at h
          rw [show roomSub none out.length = none from rfl] at h
          cases hrec : runLoop litW distW f e2 a none false with
          | none => rw [hrec] at h; cases h
          | some r1 =>
            rw [hrec] at h
            cases r1 with
            | error err => simp at h
            | ok v =>
              obtain ⟨e3, c3, o3⟩ := v
              dsimp only at h
              injection h with h2
              injection h2 with h3
              injection h3 with h4 h5
              injection h5 with h6 h7
              rcases ih e2 a e3 c3 o3 hrec with hdone | hc
              · left
                rw [← h4]
                exact hdone
              · right
                rw [← h6]
                exact hc
        | needInput =>
          dsimp only at h
          cases a with
          | cons x a' =>
            dsimp only at h
            cases hrec : runLoop litW distW f
                { e with bitbuf := e.bitbuf ++ byteBits x } a' none false with
            | none => rw [hrec] at h; cases h
            | some r1 =>
              rw [hrec] at h
              cases r1 with
              | error err => simp at h
              | ok v =>
                obtain ⟨e3, c3, o3⟩ := v
                dsimp only at h
                injection h with h2
                injection h2 with h3
                injection h3 with h4 h5
                injection h5 with h6 h7
                rcases ih _ a' e3 c3 o3 hrec with hdone | hc
                · left
                  rw [← h4]
                  exact hdone
                · right
                  rw [← h6]
                  simp [hc]
          | nil =>
            rw [if_neg (by simp)] at h
            injection h with h2
            injection h2 with h3
            injection h3 with h4 h5
            injection h5 with h6 h7
            right
            rw [← h6]
            rfl

theorem replay_split : ∀ (m k : Nat) (hist : List Nat) (dist : Nat) (o1 o2 : List Nat),
    replay hist dist m = some o1 →
    replay (o1.reverse ++ hist) dist k = some o2 →
    replay hist dist (m + k) = some (o1 ++ o2) := by
  intro m
  induction m with
  | zero =>
    intro k hist dist o1 o2 h1 h2
    injection h1 with h1e
    subst h1e
    rw [Nat.zero_add]
    simpa using h2
  | succ m ih =>
    intro k hist dist o1 o2 h1 h2
    unfold replay at h1
    split at h1
    · cases h1
    · rename_i b hb
      split at h1
      · cases h1
      · rename_i rest hrest
        injection h1 with h1e
        subst h1e
        have h2' : replay (rest.reverse ++ (b :: hist)) dist k = some o2 := by
          rw [show rest.reverse ++ (b :: hist) = (b :: rest).reverse ++ hist by simp]
          exact h2
        have hmk := ih k (b :: hist) dist rest o2 hrest h2'
        rw [show m + 1 + k = (m + k) + 1 from by omega]
        unfold replay
        rw [hb]
        dsimp only
        rw [hmk, List.cons_append]

theorem step_flush_relate (litW distW : Nat) (e : Engine) (room : Option Nat)
    (e1 : Engine) (out : List Nat)
    (h : step litW distW e room = some (.flush e1 out)) :
    (∃ litLens distLens len dist, e1.phase = .backRef litLens distLens len dist) ∧
    ∃ eF out2,
      step litW distW e none = some (.next eF (out ++ out2)) ∧
      step litW distW e1 none = some (.next eF out2) := by
  unfold step at h
  cases hp : e.phase <;> rw [hp] at h <;> dsimp only at h
  case blockHeader =>
    split at h
    · simp at h
    · split at h <;> simp at h
  case storedHeader =>
    split at h
    · simp at h
    · split at h
      · split at h <;> simp at h
      · simp at h
  case storedCopy n =>
    split at h
    · simp at h
    · split at h <;> simp at h
  case dynHeader =>
    split at h
    · simp at h
    · split at h <;> simp at h
  case dynCodeLens nlit ndist nclen acc =>
    split at h
    · simp at h
    · split at h
      · split at h <;> simp at h
      · simp at h
  case dynLens clLens nlit ndist acc =>
    split at h
    · simp at h
    · simp at h
    · rename_i sym len
      split at h
      · injection h with h2
        exact absurd h2 ((dynLensPush_no_block _ _ _ _ _ _).2 e1 out)
      · split at h
        · split at h
          · simp at h
          · split at h
            · simp at h
            · injection h with h2
              exact absurd h2 ((dynLensPush_no_block _ _ _ _ _ _).2 e1 out)
        · split at h
          · split at h
            · simp at h
            · injection h with h2
              exact absurd h2 ((dynLensPush_no_block _ _ _ _ _ _).2 e1 out)
          · split at h
            · simp at h
            · injection h with h2
              exact absurd h2 ((dynLensPush_no_block _ _ _ _ _ _).2 e1 out)
  case symbolLoop litLens distLens =>
    split at h
    · simp at h
    · simp at h
    · rename_i sym len
      split at h
      · split at h <;> simp at h
      · split at h
        · simp at h
        · split at h
          · split at h
            · simp at h
            · split at h
              · simp at h
              · simp at h
              · split at h
                · split at h <;> simp at h
                · simp at h
          · simp at h
  case checkTrailer =>
    split at h
    · simp at h
    · split at h <;> simp at h
  case done => simp at h
  case backRef litLens distLens len dist =>
    split at h
    · simp at h
    · rename_i hro
      split at h
      · simp at h
      · rename_i hdist
        cases hrep : replay e.history dist (roomCap room len) with
        | none =>
          rw [hrep] at h
          dsimp only at h
          cases h
        | some out0 =>
          rw [hrep] at h
          dsimp only at h
          obtain ⟨m, hm⟩ : ∃ m, roomCap room len = m := ⟨_, rfl⟩
          rw [hm] at h hrep
          by_cases hcap : m = len
          · rw [if_pos hcap] at h
            simp at h
          · rw [if_neg hcap] at h
            injection h with h2
            injection h2 with he1 hout
            subst hout
            have hd1 : 1 ≤ dist := by
              rcases Nat.eq_zero_or_pos dist with h0 | h0
              · exact absurd (Or.inl h0) hdist
              · exact h0
            have hd2 : dist ≤ e.history.length := by
              by_cases hlt : e.history.length < dist
              · exact absurd (Or.inr hlt) hdist
              · omega
            have hmle : m ≤ len := by
              rw [← hm]
              cases room with
              | none => simp [roomCap]
              | some r => exact Nat.min_le_left len r
            have hmlt : m < len := by omega
            have hlen2 : dist ≤ (out0.reverse ++ e.history).length := by
              rw [List.length_append]
              omega
            cases hrep2 : replay (out0.reverse ++ e.history) dist (len - m) with
            | none =>
              exact absurd hrep2
                (replay_ne_none (len - m) (out0.reverse ++ e.history) dist hd1 hlen2)
            | some out2 =>
              have hfull : replay e.history dist len = some (out0 ++ out2) := by
                have hms : m + (len - m) = len := by omega
                have hsp := replay_split m (len - m) e.history dist out0 out2 hrep hrep2
                rw [hms] at hsp
                exact hsp
              constructor
              · exact ⟨litLens, distLens, len - m, dist, by rw [← he1]⟩
              · refine ⟨{ emit e (out0 ++ out2) with phase := .symbolLoop litLens distLens },
                  out2, ?_, ?_⟩
                · unfold step
                  rw [hp]
                  dsimp only
                  rw [if_neg (show ¬((!roomHas (none : Option Nat)) = true) by simp [roomHas]),
                    if_neg hdist]
                  simp only [roomCap]
                  rw [hfull]
                  simp
                · rw [← he1]
                  unfold step
                  dsimp only [emit]
                  rw [if_neg (show ¬((!roomHas (none : Option Nat)) = true) by simp [roomHas]),
                    if_neg (show ¬(dist = 0 ∨ (out0.reverse ++ e.history).length < dist) by
                      rw [List.length_append]; omega)]
                  simp only [roomCap]
                  rw [hrep2]
                  dsimp only
                  cases hvc : e.verifyChecksum <;>
                    simp [hvc, emit, adlerFold, List.foldl_append, List.reverse_append,
                      List.append_assoc]

theorem runLoop_split (litW distW : Nat) :
    ∀ f e a room eofX e1 c1 o1 b g res2,
      runLoop litW distW f e a room eofX = some (Except.ok (e1, c1, o1)) →
      (eofX = true → b = []) →
      runLoop litW distW g e1 (a.drop c1 ++ b) none true = some res2 →
      runLoop litW distW (f + g) e (a ++ b) none true = some (glueRes c1 o1 res2) := by
  intro f
  induction f with
  | zero => intro e a room eofX e1 c1 o1 b g res2 h _ _; cases h
  | succ f ih =>
    intro e a room eofX e1 c1 o1 b g res2 h hbside h2
    rw [runLoop] at h
    unfold runBody at h
    by_cases hd : e.phase = .done
    · rw [if_pos hd] at h
      simp only [Option.some.injEq, Except.ok.injEq, Prod.mk.injEq] at h
      obtain ⟨he1, rfl, rfl⟩ := h
      rw [← he1] at h2
      cases g with
      | zero => cases h2
      | succ g1 =>
        rw [runLoop] at h2
        unfold runBody at h2
        rw [if_pos hd] at h2
        injection h2 with h2x
        rw [Nat.succ_add, runLoop]
        unfold runBody
        rw [if_pos hd, ← h2x]
        simp [glueRes]
    · rw [if_neg hd] at h
      cases hstep : step litW distW e room with
      | none => rw [hstep] at h; cases h
      | some sr =>
        rw [hstep] at h
        cases sr with
        | fail err => dsimp only at h; simp at h
        | needOutput =>
          dsimp only at h
          simp only [Option.some.injEq, Except.ok.injEq, Prod.mk.injEq] at h
          obtain ⟨he1, rfl, rfl⟩ := h
          rw [← he1] at h2
          rw [List.drop_zero] at h2
          rw [runLoop_mono litW distW g (f + 1 + g) _ _ _ _ _ (by omega) h2]
          cases res2 with
          | error err => simp [glueRes]
          | ok v2 => obtain ⟨e3, c3, o3⟩ := v2; simp [glueRes]
        | flush e1' out =>
          dsimp only at h
          simp only [Option.some.injEq, Except.ok.injEq, Prod.mk.injEq] at h
          obtain ⟨he1, rfl, rfl⟩ := h
          rw [← he1] at h2
          rw [List.drop_zero] at h2
          obtain ⟨⟨litL, distL, lenr, distr, hph⟩, eF, out2, hA, hB⟩ :=
            step_flush_relate _ _ _ _ _ _ hstep
          have hd1 : ¬ e1'.phase = Phase.done := by rw [hph]; simp
          cases g with
          | zero => cases h2
          | succ g1 =>
            rw [runLoop] at h2
            unfold runBody at h2
            rw [if_neg hd1, hB] at h2
            dsimp only at h2
            rw [show roomSub none out2.length = none from rfl] at h2
            cases hrec : runLoop litW distW g1 eF (a ++ b) none true with
            | none => rw [hrec] at h2; cases h2
            | some r =>
              rw [hrec] at h2
              rw [Nat.succ_add, runLoop]
              unfold runBody
              rw [if_neg hd, hA]
              dsimp only
              rw [show roomSub none (out ++ out2).length = none from rfl]
              rw [runLoop_mono litW distW g1 (f + (g1 + 1)) eF (a ++ b) none true r (by omega) hrec]
              cases r with
              | error err =>
                dsimp only at h2 ⊢
                injection h2 with h2x
                rw [← h2x]
                simp [glueRes]
              | ok v =>
                obtain ⟨e2, c2, o2⟩ := v
                dsimp only at h2 ⊢
                injection h2 with h2x
                rw [← h2x]
                simp [glueRes]
        | next e1' out =>
          dsimp only at h
          cases hrec : runLoop litW distW f e1' a (roomSub room out.length) eofX with
          | none => rw [hrec] at h; cases h
          | some r1 =>
            rw [hrec] at h
            cases r1 with
            | error err => dsimp only at h; simp at h
            | ok v =>
              obtain ⟨e2, c2, o2⟩ := v
              dsimp only at h
              simp only [Option.some.injEq, Except.ok.injEq, Prod.mk.injEq] at h
              obtain ⟨he2, rfl, rfl⟩ := h
              rw [← he2] at h2
              have hih := ih e1' a (roomSub room out.length) eofX e2 c2 o2 b g res2 hrec hbside h2
              rcases step_room_none litW distW e room _ hstep with hno | ⟨ex, ox, hfl⟩ | hsn
              · simp at hno
              · simp at hfl
              · rw [Nat.succ_add, runLoop]
                unfold runBody
                rw [if_neg hd, hsn]
                dsimp only
                rw [show roomSub none out.length = none from rfl]
                rw [hih]
                cases res2 with
                | error err => simp [glueRes]
                | ok v2 =>
                  obtain ⟨e3, c3, o3⟩ := v2
                  simp [glueRes]
        | needInput =>
          dsimp only at h
          rcases step_room_none litW distW e room _ hstep with hno | ⟨ex, ox, hfl⟩ | hsn
          · simp at hno
          · simp at hfl
          · cases a with
            | cons x a' =>
              dsimp only at h
              cases hrec : runLoop litW distW f
                  { e with bitbuf := e.bitbuf ++ byteBits x } a' room eofX with
              | none => rw [hrec] at h; cases h
              | some r1 =>
                rw [hrec] at h
                cases r1 with
                | error err => dsimp only at h; simp at h
                | ok v =>
                  obtain ⟨e2, c2, o2⟩ := v
                  dsimp only at h
                  simp only [Option.some.injEq, Except.ok.injEq, Prod.mk.injEq] at h
                  obtain ⟨he2, rfl, rfl⟩ := h
                  rw [← he2] at h2
                  rw [List.drop_succ_cons] at h2
                  have hih := ih _ a' room eofX e2 c2 o2 b g res2 hrec hbside h2
                  rw [Nat.succ_add, runLoop]
                  unfold runBody
                  rw [if_neg hd, hsn]
                  dsimp only
                  rw [List.cons_append]
                  dsimp only
                  rw [hih]
                  cases res2 with
                  | error err => simp [glueRes]
                  | ok v2 =>
                    obtain ⟨e3, c3, o3⟩ := v2
                    simp [glueRes, Nat.add_right_comm]
            | nil =>
              cases heof : eofX with
              | false =>
                rw [heof] at h
                rw [if_neg (by simp)] at h
                simp only [Option.some.injEq, Except.ok.injEq, Prod.mk.injEq] at h
                obtain ⟨he1, rfl, rfl⟩ := h
                rw [← he1] at h2
                rw [List.drop_zero, List.nil_append] at h2
                rw [List.nil_append]
                rw [runLoop_mono litW distW g (f + 1 + g) _ _ _ _ _ (by omega) h2]
                cases res2 with
                | error err => simp [glueRes]
                | ok v2 => obtain ⟨e3, c3, o3⟩ := v2; simp [glueRes]
              | true =>
                rw [heof] at h
                rw [if_pos rfl] at h
                have hb : b = [] := hbside heof
                subst hb
                by_cases hct : e.phase = Phase.checkTrailer
                · rw [if_pos hct] at h
                  simp only [Option.some.injEq, Except.ok.injEq, Prod.mk.injEq] at h
                  obtain ⟨he1, rfl, rfl⟩ := h
                  rw [← he1] at h2
                  cases g with
                  | zero => cases h2
                  | succ g1 =>
                    rw [runLoop] at h2
                    unfold runBody at h2
                    rw [if_pos (show ({ e with phase := Phase.done } : Engine).phase =
                      Phase.done from rfl)] at h2
                    injection h2 with h2x
                    rw [List.append_nil, Nat.succ_add, runLoop]
                    unfold runBody
                    rw [if_neg hd, hsn]
                    dsimp only
                    rw [if_pos rfl, if_pos hct, ← h2x]
                    simp [glueRes]
                · rw [if_neg hct] at h
                  simp at h

theorem runSched_eq_ref (litW distW : Nat) (input : List Nat) (early : Bool) :
    ∀ sched e pos,
      runSched litW distW input early sched e pos = refRun litW distW e (input.drop pos) := by
  intro sched
  induction sched with
  | nil =>
    intro e pos
    rw [runSched]
    unfold refRun
    cases hA : (if early then true else decide (input.length ≤ pos)) with
    | true =>
      cases hc : readEngine litW distW e (input.drop pos) none true with
      | none => rfl
      | some r =>
        cases r with
        | error err => rfl
        | ok v =>
          obtain ⟨e1, c1, o1⟩ := v
          unfold readEngine at hc
          have hdone : e1.phase = Phase.done :=
            runLoop_eof_done litW distW _ e (input.drop pos) e1 c1 o1 hc
          dsimp only
          rw [if_pos hdone]
    | false =>
      cases hc : readEngine litW distW e (input.drop pos) none false with
      | none => exact absurd hc (readEngine_ne_none litW distW e (input.drop pos) none false)
      | some r =>
        unfold readEngine at hc
        cases r with
        | error err =>
          have hext := runLoop_error_extend litW distW (fuelFor e (input.drop pos)) e
            (input.drop pos) none false err [] true hc
            (fun hx => absurd hx (by simp))
          rw [List.append_nil] at hext
          unfold readEngine
          rw [hext]
        | ok v =>
          obtain ⟨e1, c1, o1⟩ := v
          dsimp only
          by_cases hdone : e1.phase = Phase.done
          · rw [if_pos hdone]
            have h2 : runLoop litW distW 1 e1 ((input.drop pos).drop c1 ++ []) none true =
                some (Except.ok (e1, 0, [])) := by
              rw [runLoop]
              unfold runBody
              rw [if_pos hdone]
            have hsp := runLoop_split litW distW (fuelFor e (input.drop pos)) e
              (input.drop pos) none false e1 c1 o1 [] 1 (Except.ok (e1, 0, [])) hc
              (fun hx => absurd hx (by simp)) h2
            rw [List.append_nil] at hsp
            unfold readEngine
            cases hrc : runLoop litW distW (fuelFor e (input.drop pos)) e (input.drop pos)
                none true with
            | none =>
              exact absurd hrc (readEngine_ne_none litW distW e (input.drop pos) none true)
            | some rr =>
              have hu := runLoop_uniq litW distW _ _ _ _ _ _ _ _ hsp hrc
              rw [← hu]
              simp [glueRes]
          · rw [if_neg hdone]
            rcases runLoop_consume_all litW distW _ e (input.drop pos) e1 c1 o1 hc with
              hcd | hclen
            · exact absurd hcd hdone
            · cases hc2 : readEngine litW distW e1 [] none true with
              | none => exact absurd hc2 (readEngine_ne_none litW distW e1 [] none true)
              | some r2 =>
                unfold readEngine at hc2
                have h2' : runLoop litW distW (fuelFor e1 []) e1
                    ((input.drop pos).drop c1 ++ []) none true = some r2 := by
                  rw [hclen, List.drop_length, List.append_nil]
                  exact hc2
                have hsp := runLoop_split litW distW (fuelFor e (input.drop pos)) e
                  (input.drop pos) none false e1 c1 o1 [] (fuelFor e1 []) r2 hc
                  (fun hx => absurd hx (by simp)) h2'
                rw [List.append_nil] at hsp
                unfold readEngine
                cases hrc : runLoop litW distW (fuelFor e (input.drop pos)) e (input.drop pos)
                    none true with
                | none =>
                  exact absurd hrc (readEngine_ne_none litW distW e (input.drop pos) none true)
                | some rr =>
                  have hu := runLoop_uniq litW distW _ _ _ _ _ _ _ _ hsp hrc
                  rw [← hu]
                  cases r2 with
                  | error err2 => simp [glueRes]
                  | ok v2 =>
                    obtain ⟨e2, c2, o2⟩ := v2
                    simp [glueRes]
  | cons hdc tl ih =>
    obtain ⟨ic, oc⟩ := hdc
    intro e pos
    rw [runSched]
    unfold refRun
    have hsb : (input.drop pos).take ic ++ (input.drop pos).drop ic = input.drop pos :=
      List.take_append_drop ic (input.drop pos)
    have hside : (if early then decide (input.length ≤ pos + ic)
        else decide (input.length ≤ pos)) = true → (input.drop pos).drop ic = [] := by
      intro hx
      cases early
      · simp at hx
        apply List.drop_eq_nil_of_le
        rw [List.length_drop]
        omega
      · simp at hx
        apply List.drop_eq_nil_of_le
        rw [List.length_drop]
        omega
    cases hc : readEngine litW distW e ((input.drop pos).take ic) (some oc)
        (if early then decide (input.length ≤ pos + ic) else decide (input.length ≤ pos)) with
    | none => exact absurd hc (readEngine_ne_none _ _ _ _ _ _)
    | some r =>
      unfold readEngine at hc
      cases r with
      | error err =>
        have hext := runLoop_error_extend litW distW (fuelFor e ((input.drop pos).take ic)) e
          ((input.drop pos).take ic) (some oc) _ err ((input.drop pos).drop ic) true hc
          (fun hx => ⟨hside hx, rfl⟩)
        rw [hsb] at hext
        have h1 : ((input.drop pos).take ic).length ≤ (input.drop pos).length := by
          rw [List.length_take]
          exact Nat.min_le_right _ _
        have hmono := runLoop_mono litW distW (fuelFor e ((input.drop pos).take ic))
          (fuelFor e (input.drop pos)) e (input.drop pos) none true _
          (by unfold fuelFor; omega) hext
        unfold readEngine
        rw [hmono]
      | ok v =>
        obtain ⟨e1, c1, o1⟩ := v
        dsimp only
        have hc1le : c1 ≤ ((input.drop pos).take ic).length :=
          (runLoop_bounds litW distW _ e _ _ _ e1 c1 o1 hc).1
        by_cases hdone : e1.phase = Phase.done
        · rw [if_pos hdone]
          have h2 : runLoop litW distW 1 e1
              (((input.drop pos).take ic).drop c1 ++ (input.drop pos).drop ic) none true =
              some (Except.ok (e1, 0, [])) := by
            rw [runLoop]
            unfold runBody
            rw [if_pos hdone]
          have hsp := runLoop_split litW distW (fuelFor e ((input.drop pos).take ic)) e
            ((input.drop pos).take ic) (some oc) _ e1 c1 o1 ((input.drop pos).drop ic) 1
            (Except.ok (e1, 0, [])) hc hside h2
          rw [hsb] at hsp
          unfold readEngine
          cases hrc : runLoop litW distW (fuelFor e (input.drop pos)) e (input.drop pos)
              none true with
          | none =>
            exact absurd hrc (readEngine_ne_none litW distW e (input.drop pos) none true)
          | some rr =>
            have hu := runLoop_uniq litW distW _ _ _ _ _ _ _ _ hsp hrc
            rw [← hu]
            simp [glueRes]
        · rw [if_neg hdone]
          rw [ih e1 (pos + c1)]
          have hdd : (input.drop pos).drop c1 = input.drop (pos + c1) := by
            rw [List.drop_drop, Nat.add_comm]
          have hsplitinp : ((input.drop pos).take ic).drop c1 ++ (input.drop pos).drop ic =
              (input.drop pos).drop c1 := by
            conv_rhs => rw [← hsb]
            rw [List.drop_append_eq_append_drop]
            rw [show c1 - ((input.drop pos).take ic).length = 0 from by omega, List.drop_zero]
          unfold refRun
          cases hc2 : readEngine litW distW e1 (input.drop (pos + c1)) none true with
          | none => exact absurd hc2 (readEngine_ne_none _ _ _ _ _ _)
          | some r2 =>
            unfold readEngine at hc2
            have h2' : runLoop litW distW (fuelFor e1 (input.drop (pos + c1))) e1
                (((input.drop pos).take ic).drop c1 ++ (input.drop pos).drop ic) none true
                = some r2 := by
              rw [hsplitinp, hdd]
              exact hc2
            have hsp := runLoop_split litW distW (fuelFor e ((input.drop pos).take ic)) e
              ((input.drop pos).take ic) (some oc) _ e1 c1 o1 ((input.drop pos).drop ic)
              (fuelFor e1 (input.drop (pos + c1))) r2 hc hside h2'
            rw [hsb] at hsp
            unfold readEngine
            cases hrc : runLoop litW distW (fuelFor e (input.drop pos)) e (input.drop pos)
                none true with
            | none =>
              exact absurd hrc (readEngine_ne_none litW distW e (input.drop pos) none true)
            | some rr =>
              have hu := runLoop_uniq litW distW _ _ _ _ _ _ _ _ hsp hrc
              rw [← hu]
              cases r2 with
              | error err2 => simp [glueRes]
              | ok v2 =>
                obtain ⟨e2, c2, o2⟩ := v2
                simp [glueRes]

/-- **C2**: driving the decompressor by repeated `read` calls with any
schedule of input-chunk sizes and output-room amounts (whole buffer at
once, byte-by-byte, arbitrary splits, and either end-of-input convention)
yields exactly the same result as decompressing the whole input in one
call - in particular, on valid inputs every chunking pattern produces
byte-identical decompressed output. -/
theorem claim_C2_chunk_invariance (litW distW : Nat) (verify : Bool) (input : List Nat)
    (early : Bool) (sched : List (Nat × Nat)) :
    runSched litW distW input early sched (initEngine verify) 0 =
      inflateCore litW distW verify input := by
  rw [runSched_eq_ref, List.drop_zero]
  rfl

/-- **C5**: signalling `end_of_input` as soon as the supplied slice
reaches the end of the input yields the same result (decompressed bytes
on success, failure on error) as signalling it only on later calls once
the whole input has been consumed - for every input and every chunk
schedule. -/
theorem claim_C5_early_eof_equivalence (litW distW : Nat) (verify : Bool) (input : List Nat)
    (sched : List (Nat × Nat)) :
    runSched litW distW input true sched (initEngine verify) 0 =
      runSched litW distW input false sched (initEngine verify) 0 := by
  rw [runSched_eq_ref, runSched_eq_ref]

theorem stripPhase_eq_self (p : Phase) (h : p ≠ .checkTrailer) : stripPhase p = p := by
  cases p <;> first | rfl | exact absurd rfl h

theorem afterBlock_strip (ad : Nat × Nat) (e : Engine) (hv : e.verifyChecksum = true) :
    afterBlock (stripEngine ad e) = stripPhase (afterBlock e) := by
  by_cases hf : e.final = true
  · simp [afterBlock, stripEngine, hv, hf, stripPhase]
  · simp [afterBlock, stripEngine, hv, hf, stripPhase]

theorem dynLensPush_strip2 (ad : Nat × Nat) (e : Engine) (clLens : List Nat)
    (nlit ndist : Nat) (acc2 : List Nat) (used : Nat) :
    some (dynLensPush (stripEngine ad e) clLens nlit ndist acc2 used) =
      stripRes ad (some (dynLensPush e clLens nlit ndist acc2 used)) := by
  unfold dynLensPush
  split
  · rfl
  · split
    · split
      · rfl
      · rfl
    · rfl

theorem dynLensPush_verify (e : Engine) (clLens : List Nat) (nlit ndist : Nat)
    (acc2 : List Nat) (used : Nat) (e1 : Engine) (out : List Nat)
    (h : dynLensPush e clLens nlit ndist acc2 used = .next e1 out) :
    e1.verifyChecksum = e.verifyChecksum := by
  unfold dynLensPush at h
  split at h
  · simp at h
  · split at h
    · split at h
      · injection h with h3 h4
        rw [← h3]
      · simp at h
    · injection h with h3 h4
      rw [← h3]

theorem step_verify_next (litW distW : Nat) (e : Engine) (room : Option Nat)
    (e1 : Engine) (out : List Nat)
    (h : step litW distW e room = some (.next e1 out)) :
    e1.verifyChecksum = e.verifyChecksum := by
  unfold step at h
  cases hp : e.phase <;> rw [hp] at h <;> dsimp only at h
  case blockHeader =>
    split at h
    · simp at h
    · split at h <;>
        first
        | (injection h with h2; injection h2 with h3 h4; rw [← h3]; try rfl)
        | simp at h
  case storedHeader =>
    split at h
    · simp at h
    · split at h
      · split at h <;> (injection h with h2; injection h2 with h3 h4; rw [← h3]; try rfl)
      · simp at h
  case storedCopy n =>
    split at h
    · simp at h
    · split at h
      · simp at h
      · injection h with h2
        injection h2 with h3 h4
        rw [← h3]
        try rfl
  case dynHeader =>
    split at h
    · simp at h
    · split at h
      · injection h with h2
        injection h2 with h3 h4
        rw [← h3]
        try rfl
      · simp at h
  case dynCodeLens nlit ndist nclen acc =>
    split at h
    · simp at h
    · split at h
      · split at h
        · injection h with h2
          injection h2 with h3 h4
          rw [← h3]
          try rfl
        · simp at h
      · injection h with h2
        injection h2 with h3 h4
        rw [← h3]
        try rfl
  case dynLens clLens nlit ndist acc =>
    split at h
    · simp at h
    · simp at h
    · rename_i sym len
      split at h
      · injection h with h2
        exact dynLensPush_verify _ _ _ _ _ _ _ _ h2
      · split at h
        · split at h
          · simp at h
          · split at h
            · simp at h
            · injection h with h2
              exact dynLensPush_verify _ _ _ _ _ _ _ _ h2
        · split at h
          · split at h
            · simp at h
            · injection h with h2
              exact dynLensPush_verify _ _ _ _ _ _ _ _ h2
          · split at h
            · simp at h
            · injection h with h2
              exact dynLensPush_verify _ _ _ _ _ _ _ _ h2
  case symbolLoop litLens distLens =>
    split at h
    · simp at h
    · simp at h
    · rename_i sym len
      split at h
      · split at h
        · simp at h
        · injection h with h2
          injection h2 with h3 h4
          rw [← h3]
          try rfl
      · split at h
        · injection h with h2
          injection h2 with h3 h4
          rw [← h3]
          try rfl
        · split at h
          · split at h
            · simp at h
            · split at h
              · simp at h
              · simp at h
              · split at h
                · split at h
                  · simp at h
                  · injection h with h2
                    injection h2 with h3 h4
                    rw [← h3]
                    try rfl
                · simp at h
          · simp at h
  case backRef litLens distLens len dist =>
    split at h
    · simp at h
    · split at h
      · simp at h
      · split at h
        · cases h
        · split at h
          · injection h with h2
            injection h2 with h3 h4
            rw [← h3]
            try rfl
          · simp at h
  case checkTrailer =>
    split at h
    · simp at h
    · split at h
      · injection h with h2
        injection h2 with h3 h4
        rw [← h3]
        try rfl
      · simp at h
  case done =>
    injection h with h2
    injection h2 with h3 h4
    rw [← h3]
    try rfl

theorem step_fail_not_mismatch (litW distW : Nat) (e : Engine) (room : Option Nat)
    (err : DecompressionError) (hph : e.phase ≠ .checkTrailer)
    (h : step litW distW e room = some (.fail err)) :
    err ≠ .ChecksumMismatch := by
  unfold step at h
  cases hp : e.phase <;> rw [hp] at h <;> dsimp only at h
  case checkTrailer => exact absurd hp hph
  case blockHeader =>
    split at h
    · simp at h
    · split at h <;>
        first
        | (injection h with h2; injection h2 with h3; rw [← h3]; simp)
        | simp at h
  case storedHeader =>
    split at h
    · simp at h
    · split at h
      · split at h <;> simp at h
      · injection h with h2
        injection h2 with h3
        rw [← h3]
        simp
  case storedCopy n =>
    split at h
    · simp at h
    · split at h <;> simp at h
  case dynHeader =>
    split at h
    · simp at h
    · split at h
      · simp at h
      · injection h with h2
        injection h2 with h3
        rw [← h3]
        simp
  case dynCodeLens nlit ndist nclen acc =>
    split at h
    · simp at h
    · split at h
      · split at h
        · simp at h
        · injection h with h2
          injection h2 with h3
          rw [← h3]
          simp
      · simp at h
  case dynLens clLens nlit ndist acc =>
    split at h
    · simp at h
    · injection h with h2
      injection h2 with h3
      rw [← h3]
      simp
    · rename_i sym len
      split at h
      · injection h with h2
        rcases dynLensPush_shape e clLens nlit ndist _ _ with ⟨e1, hdp⟩ | hdp <;>
          rw [hdp] at h2
        · simp at h2
        · injection h2 with h3
          rw [← h3]
          simp
      · split at h
        · split at h
          · simp at h
            rw [← h]
            simp
          · split at h
            · simp at h
            · injection h with h2
              rcases dynLensPush_shape e clLens nlit ndist _ _ with ⟨e1, hdp⟩ | hdp <;>
                rw [hdp] at h2
              · simp at h2
              · injection h2 with h3
                rw [← h3]
                simp
        · split at h
          · split at h
            · simp at h
            · injection h with h2
              rcases dynLensPush_shape e clLens nlit ndist _ _ with ⟨e1, hdp⟩ | hdp <;>
                rw [hdp] at h2
              · simp at h2
              · injection h2 with h3
                rw [← h3]
                simp
          · split at h
            · simp at h
            · injection h with h2
              rcases dynLensPush_shape e clLens nlit ndist _ _ with ⟨e1, hdp⟩ | hdp <;>
                rw [hdp] at h2
              · simp at h2
              · injection h2 with h3
                rw [← h3]
                simp
  case symbolLoop litLens distLens =>
    split at h
    · simp at h
    · injection h with h2
      injection h2 with h3
      rw [← h3]
      simp
    · rename_i sym len
      split at h
      · split at h <;> simp at h
      · split at h
        · simp at h
        · split at h
          · split at h
            · simp at h
            · split at h
              · simp at h
              · injection h with h2
                injection h2 with h3
                rw [← h3]
                simp
              · split at h
                · split at h <;> simp at h
                · injection h with h2
                  injection h2 with h3
                  rw [← h3]
                  simp
          · injection h with h2
            injection h2 with h3
            rw [← h3]
            simp
  case backRef litLens distLens len dist =>
    split at h
    · simp at h
    · split at h
      · injection h with h2
        injection h2 with h3
        rw [← h3]
        simp
      · split at h
        · cases h
        · split at h <;> simp at h
  case done => simp at h

theorem step_strip (litW distW : Nat) (ad : Nat × Nat) (e : Engine)
    (hv : e.verifyChecksum = true) (hph : e.phase ≠ .checkTrailer) :
    step litW distW (stripEngine ad e) none = stripRes ad (step litW distW e none) := by
  unfold step
  rw [show (stripEngine ad e).phase = stripPhase e.phase from rfl,
    show (stripEngine ad e).bitbuf = e.bitbuf from rfl,
    show (stripEngine ad e).history = e.history from rfl,
    show (stripEngine ad e).adler = ad from rfl]
  cases hp : e.phase <;> dsimp only [stripPhase]
  case checkTrailer => exact absurd hp hph
  case done => rfl
  case blockHeader =>
    by_cases h3 : e.bitbuf.length < 3
    · rw [if_pos h3, if_pos h3]
      rfl
    · rw [if_neg h3, if_neg h3]
      cases hb2 : bitsVal ((e.bitbuf.drop 1).take 2) with
      | zero => rfl
      | succ n2 =>
        cases n2 with
        | zero => rfl
        | succ n3 =>
          cases n3 with
          | zero => rfl
          | succ n4 => rfl
  case storedHeader =>
    by_cases hlen : e.bitbuf.length < e.bitbuf.length % 8 + 32
    · rw [if_pos hlen, if_pos hlen]
      rfl
    · rw [if_neg hlen, if_neg hlen]
      by_cases hsum : (bitsVal ((e.bitbuf.drop (e.bitbuf.length % 8)).take 16) +
          bitsVal (((e.bitbuf.drop (e.bitbuf.length % 8)).drop 16).take 16) == 65535) = true
      · rw [if_pos hsum, if_pos hsum]
        by_cases hz : (bitsVal ((e.bitbuf.drop (e.bitbuf.length % 8)).take 16) == 0) = true
        · rw [if_pos hz, if_pos hz, afterBlock_strip ad e hv]
          rfl
        · rw [if_neg hz, if_neg hz]
          rfl
      · rw [if_neg hsum, if_neg hsum]
        rfl
  case storedCopy n =>
    rw [if_neg (show ¬((!roomHas (none : Option Nat)) = true) by simp [roomHas]),
      if_neg (show ¬((!roomHas (none : Option Nat)) = true) by simp [roomHas])]
    by_cases h8 : e.bitbuf.length < 8
    · rw [if_pos h8, if_pos h8]
      rfl
    · rw [if_neg h8, if_neg h8]
      by_cases hn : n ≤ 1
      · rw [if_pos hn, if_pos hn, afterBlock_strip ad e hv]
        rfl
      · rw [if_neg hn, if_neg hn]
        rfl
  case dynHeader =>
    by_cases h14 : e.bitbuf.length < 14
    · rw [if_pos h14, if_pos h14]
      rfl
    · rw [if_neg h14, if_neg h14]
      by_cases hok : bitsVal (e.bitbuf.take 5) + 257 ≤ 286 ∧
          bitsVal ((e.bitbuf.drop 5).take 5) + 1 ≤ 30
      · rw [if_pos hok, if_pos hok]
        rfl
      · rw [if_neg hok, if_neg hok]
        rfl
  case dynCodeLens nlit ndist nclen acc =>
    by_cases h3 : e.bitbuf.length < 3
    · rw [if_pos h3, if_pos h3]
      rfl
    · rw [if_neg h3, if_neg h3]
      by_cases hc : acc.length + 1 = nclen
      · rw [if_pos hc, if_pos hc]
        by_cases hvl : validLens (clLensOf (acc ++ [bitsVal (e.bitbuf.take 3)])) = true
        · rw [if_pos hvl, if_pos hvl]
          rfl
        · rw [if_neg hvl, if_neg hvl]
          rfl
      · rw [if_neg hc, if_neg hc]
        rfl
  case dynLens clLens nlit ndist acc =>
    cases hdec : decodeSym clLens e.bitbuf with
    | short => rfl
    | bad => rfl
    | found sym len =>
      dsimp only
      by_cases hs15 : sym ≤ 15
      · rw [if_pos hs15, if_pos hs15]
        exact dynLensPush_strip2 ad e clLens nlit ndist _ _
      · rw [if_neg hs15, if_neg hs15]
        by_cases hs16 : sym = 16
        · rw [if_pos hs16, if_pos hs16]
          cases hlast : acc.getLast? with
          | none => rfl
          | some prev =>
            dsimp only
            by_cases hlen2 : e.bitbuf.length < len + 2
            · rw [if_pos hlen2, if_pos hlen2]
              rfl
            · rw [if_neg hlen2, if_neg hlen2]
              exact dynLensPush_strip2 ad e clLens nlit ndist _ _
        · rw [if_neg hs16, if_neg hs16]
          by_cases hs17 : sym = 17
          · rw [if_pos hs17, if_pos hs17]
            by_cases hlen3 : e.bitbuf.length < len + 3
            · rw [if_pos hlen3, if_pos hlen3]
              rfl
            · rw [if_neg hlen3, if_neg hlen3]
              exact dynLensPush_strip2 ad e clLens nlit ndist _ _
          · rw [if_neg hs17, if_neg hs17]
            by_cases hlen7 : e.bitbuf.length < len + 7
            · rw [if_pos hlen7, if_pos hlen7]
              rfl
            · rw [if_neg hlen7, if_neg hlen7]
              exact dynLensPush_strip2 ad e clLens nlit ndist _ _
  case symbolLoop litLens distLens =>
    cases hdec : decodeSymTable litW litLens e.bitbuf with
    | short => rfl
    | bad => rfl
    | found sym len =>
      dsimp only
      by_cases hs : sym < 256
      · rw [if_pos hs, if_pos hs,
          if_neg (show ¬((!roomHas (none : Option Nat)) = true) by simp [roomHas]),
          if_neg (show ¬((!roomHas (none : Option Nat)) = true) by simp [roomHas])]
        rfl
      · rw [if_neg hs, if_neg hs]
        by_cases h256 : sym = 256
        · rw [if_pos h256, if_pos h256, afterBlock_strip ad e hv]
          rfl
        · rw [if_neg h256, if_neg h256]
          by_cases h285 : sym ≤ 285
          · rw [if_pos h285, if_pos h285]
            by_cases hlx : e.bitbuf.length < len + lengthExtra sym
            · rw [if_pos hlx, if_pos hlx]
              rfl
            · rw [if_neg hlx, if_neg hlx]
              cases hdec2 : decodeSymTable distW distLens
                  (e.bitbuf.drop (len + lengthExtra sym)) with
              | short => rfl
              | bad => rfl
              | found dsym dlen =>
                dsimp only
                by_cases hd29 : dsym ≤ 29
                · rw [if_pos hd29, if_pos hd29]
                  by_cases hdx : (e.bitbuf.drop (len + lengthExtra sym)).length <
                      dlen + distExtra dsym
                  · rw [if_pos hdx, if_pos hdx]
                    rfl
                  · rw [if_neg hdx, if_neg hdx]
                    rfl
                · rw [if_neg hd29, if_neg hd29]
                  rfl
          · rw [if_neg h285, if_neg h285]
            rfl
  case backRef litLens distLens len dist =>
    rw [if_neg (show ¬((!roomHas (none : Option Nat)) = true) by simp [roomHas]),
      if_neg (show ¬((!roomHas (none : Option Nat)) = true) by simp [roomHas])]
    by_cases hdist : dist = 0 ∨ e.history.length < dist
    · rw [if_pos hdist, if_pos hdist]
      rfl
    · rw [if_neg hdist, if_neg hdist]
      cases hrep : replay e.history dist (roomCap none len) with
      | none => rfl
      | some out0 =>
        dsimp only
        by_cases hcap : roomCap none len = len
        · rw [if_pos hcap, if_pos hcap]
          rfl
        · rw [if_neg hcap, if_neg hcap]
          rfl

theorem runLoop_trailer (litW distW : Nat) :
    ∀ f e a res,
      runLoop litW distW f e a none true = some res →
      e.phase = .checkTrailer →
      res = Except.error .ChecksumMismatch ∨ ∃ e1 c1, res = Except.ok (e1, c1, []) := by
  intro f
  induction f with
  | zero => intro e a res h _; cases h
  | succ f ih =>
    intro e a res h hph
    rw [runLoop] at h
    unfold runBody at h
    rw [if_neg (by rw [hph]; simp)] at h
    have hs : step litW distW e none =
        (if e.bitbuf.length < e.bitbuf.length % 8 + 32 then some .needInput
         else
           if trailerValue (e.bitbuf.drop (e.bitbuf.length % 8)) == adlerValue e.adler then
             some (.next { e with
               phase := .done
               bitbuf := (e.bitbuf.drop (e.bitbuf.length % 8)).drop 32 } [])
           else some (.fail .ChecksumMismatch)) := by
      unfold step
      rw [hph]
    rw [hs] at h
    by_cases hblen : e.bitbuf.length < e.bitbuf.length % 8 + 32
    · rw [if_pos hblen] at h
      dsimp only at h
      cases a with
      | cons x a' =>
        dsimp only at h
        cases hrec : runLoop litW distW f
            { e with bitbuf := e.bitbuf ++ byteBits x } a' none true with
        | none => rw [hrec] at h; cases h
        | some r1 =>
          rw [hrec] at h
          have hph1 : ({ e with bitbuf := e.bitbuf ++ byteBits x } : Engine).phase =
              Phase.checkTrailer := hph
          rcases ih _ a' r1 hrec hph1 with hmis | ⟨e1, c1, hok⟩
          · subst hmis
            dsimp only at h
            injection h with h2
            exact Or.inl h2.symm
          · subst hok
            dsimp only at h
            injection h with h2
            exact Or.inr ⟨e1, c1 + 1, h2.symm⟩
      | nil =>
        rw [if_pos rfl, if_pos hph] at h
        injection h with h2
        exact Or.inr ⟨_, 0, h2.symm⟩
    · rw [if_neg hblen] at h
      by_cases htr : (trailerValue (e.bitbuf.drop (e.bitbuf.length % 8)) ==
          adlerValue e.adler) = true
      · rw [if_pos htr] at h
        dsimp only at h
        cases hrec : runLoop litW distW f
            { e with
              phase := .done
              bitbuf := (e.bitbuf.drop (e.bitbuf.length % 8)).drop 32 } a
            (roomSub none ([] : List Nat).length) true with
        | none => rw [hrec] at h; cases h
        | some r1 =>
          rw [hrec] at h
          cases f with
          | zero => cases hrec
          | succ f2 =>
            rw [runLoop] at hrec
            unfold runBody at hrec
            rw [if_pos rfl] at hrec
            injection hrec with hr1
            rw [← hr1] at h
            dsimp only at h
            injection h with h2
            exact Or.inr ⟨_, 0, h2.symm⟩
      · rw [if_neg htr] at h
        dsimp only at h
        injection h with h2
        exact Or.inl h2.symm

theorem runLoop_strip (litW distW : Nat) :
    ∀ f e ad a res,
      runLoop litW distW f e a none true = some res →
      e.verifyChecksum = true →
      e.phase ≠ .checkTrailer →
      (∀ e1 c1 o1, res = Except.ok (e1, c1, o1) →
        ∃ e2 c2, runLoop litW distW f (stripEngine ad e) a none true =
          some (Except.ok (e2, c2, o1))) ∧
      (∀ err, res = Except.error err → err ≠ .ChecksumMismatch →
        runLoop litW distW f (stripEngine ad e) a none true = some (Except.error err)) ∧
      (res = Except.error .ChecksumMismatch →
        ∃ e2 c2 o2, runLoop litW distW f (stripEngine ad e) a none true =
          some (Except.ok (e2, c2, o2))) := by
  intro f
  induction f with
  | zero => intro e ad a res h _ _; cases h
  | succ f ih =>
    intro e ad a res h hv hph
    have hphs : (stripEngine ad e).phase = e.phase := by
      rw [show (stripEngine ad e).phase = stripPhase e.phase from rfl,
        stripPhase_eq_self e.phase hph]
    rw [runLoop] at h
    unfold runBody at h
    by_cases hd : e.phase = .done
    · rw [if_pos hd] at h
      injection h with h2
      have hoff : runLoop litW distW (f + 1) (stripEngine ad e) a none true =
          some (Except.ok (stripEngine ad e, 0, [])) := by
        rw [runLoop]
        unfold runBody
        rw [if_pos (by rw [hphs]; exact hd)]
      refine ⟨?_, ?_, ?_⟩
      · intro e1 c1 o1 hres
        rw [← h2] at hres
        injection hres with hr3
        injection hr3 with hr4 hr5
        injection hr5 with hr6 hr7
        exact ⟨stripEngine ad e, 0, by rw [hoff, hr7]⟩
      · intro err hres herrne
        rw [← h2] at hres
        simp at hres
      · intro hres
        rw [← h2] at hres
        simp at hres
    · rw [if_neg hd] at h
      cases hstep : step litW distW e none with
      | none => rw [hstep] at h; cases h
      | some sr =>
        rw [hstep] at h
        cases sr with
        | needOutput => exact absurd rfl ((step_none_no_block litW distW e _ hstep).1)
        | flush e1 out => exact absurd rfl ((step_none_no_block litW distW e _ hstep).2 e1 out)
        | fail err2 =>
          dsimp only at h
          injection h with h2
          have herr2 := step_fail_not_mismatch litW distW e none err2 hph hstep
          have hoffstep : step litW distW (stripEngine ad e) none = some (.fail err2) := by
            rw [step_strip litW distW ad e hv hph, hstep]
            rfl
          have hoff : runLoop litW distW (f + 1) (stripEngine ad e) a none true =
              some (Except.error err2) := by
            rw [runLoop]
            unfold runBody
            rw [if_neg (by rw [hphs]; exact hd), hoffstep]
          refine ⟨?_, ?_, ?_⟩
          · intro e1 c1 o1 hres
            rw [← h2] at hres
            simp at hres
          · intro err hres herrne
            rw [← h2] at hres
            injection hres with hr3
            rw [hoff, hr3]
          · intro hres
            rw [← h2] at hres
            injection hres with hr3
            exact absurd hr3 herr2
        | next e1 out =>
          dsimp only at h
          rw [show roomSub none out.length = none from rfl] at h
          cases hrec : runLoop litW distW f e1 a none true with
          | none => rw [hrec] at h; cases h
          | some r1 =>
            rw [hrec] at h
            have hoffstep : step litW distW (stripEngine ad e) none =
                some (.next (stripEngine ad e1) out) := by
              rw [step_strip litW distW ad e hv hph, hstep]
              rfl
            by_cases hph1 : e1.phase = Phase.checkTrailer
            · have hf1 : f ≠ 0 := by
                intro h0
                rw [h0] at hrec
                cases hrec
              obtain ⟨f2, rfl⟩ : ∃ f2, f = f2 + 1 := ⟨f - 1, by omega⟩
              have hpd : (stripEngine ad e1).phase = Phase.done := by
                rw [show (stripEngine ad e1).phase = stripPhase e1.phase from rfl, hph1]
                rfl
              have hoff : runLoop litW distW (f2 + 1 + 1) (stripEngine ad e) a none true =
                  some (Except.ok (stripEngine ad e1, 0, out ++ [])) := by
                rw [runLoop]
                unfold runBody
                rw [if_neg (by rw [hphs]; exact hd), hoffstep]
                dsimp only
                rw [show roomSub none out.length = none from rfl]
                rw [runLoop]
                unfold runBody
                rw [if_pos hpd]
              rcases runLoop_trailer litW distW (f2 + 1) e1 a r1 hrec hph1 with
                hmis | ⟨e2, c2, hok⟩
              · subst hmis
                dsimp only at h
                injection h with h2
                refine ⟨?_, ?_, ?_⟩
                · intro e1' c1' o1' hres
                  rw [← h2] at hres
                  simp at hres
                · intro err hres herrne
                  rw [← h2] at hres
                  injection hres with hr3
                  exact absurd hr3.symm herrne
                · intro hres
                  exact ⟨stripEngine ad e1, 0, out ++ [], hoff⟩
              · subst hok
                dsimp only at h
                injection h with h2
                refine ⟨?_, ?_, ?_⟩
                · intro e1' c1' o1' hres
                  rw [← h2] at hres
                  injection hres with hr3
                  injection hr3 with hr4 hr5
                  injection hr5 with hr6 hr7
                  exact ⟨stripEngine ad e1, 0, by rw [hoff, hr7]⟩
                · intro err hres herrne
                  rw [← h2] at hres
                  simp at hres
                · intro hres
                  rw [← h2] at hres
                  simp at hres
            · have hv1 : e1.verifyChecksum = true := by
                rw [step_verify_next litW distW e none e1 out hstep]
                exact hv
              obtain ⟨hok, herr, hm2⟩ := ih e1 ad a r1 hrec hv1 hph1
              cases r1 with
              | error err2 =>
                dsimp only at h
                injection h with h2
                by_cases herrm : err2 = DecompressionError.ChecksumMismatch
                · subst herrm
                  obtain ⟨e2', c2', o2', hoffrec⟩ := hm2 rfl
                  have hoff : runLoop litW distW (f + 1) (stripEngine ad e) a none true =
                      some (Except.ok (e2', c2', out ++ o2')) := by
                    rw [runLoop]
                    unfold runBody
                    rw [if_neg (by rw [hphs]; exact hd), hoffstep]
                    dsimp only
                    rw [show roomSub none out.length = none from rfl, hoffrec]
                  refine ⟨?_, ?_, ?_⟩
                  · intro e1' c1' o1' hres
                    rw [← h2] at hres
                    simp at hres
                  · intro err hres herrne
                    rw [← h2] at hres
                    injection hres with hr3
                    exact absurd hr3.symm herrne
                  · intro hres
                    exact ⟨e2', c2', out ++ o2', hoff⟩
                · have hoffrec := herr err2 rfl herrm
                  have hoff : runLoop litW distW (f + 1) (stripEngine ad e) a none true =
                      some (Except.error err2) := by
                    rw [runLoop]
                    unfold runBody
                    rw [if_neg (by rw [hphs]; exact hd), hoffstep]
                    dsimp only
                    rw [show roomSub none out.length = none from rfl, hoffrec]
                  refine ⟨?_, ?_, ?_⟩
                  · intro e1' c1' o1' hres
                    rw [← h2] at hres
                    simp at hres
                  · intro err hres herrne
                    rw [← h2] at hres
                    injection hres with hr3
                    rw [hoff, hr3]
                  · intro hres
                    rw [← h2] at hres
                    injection hres with hr3
                    exact absurd hr3 herrm
              | ok v =>
                obtain ⟨e2, c2, o2⟩ := v
                dsimp only at h
                injection h with h2
                obtain ⟨e2', c2', hoffrec⟩ := hok e2 c2 o2 rfl
                have hoff : runLoop litW distW (f + 1) (stripEngine ad e) a none true =
                    some (Except.ok (e2', c2', out ++ o2)) := by
                  rw [runLoop]
                  unfold runBody
                  rw [if_neg (by rw [hphs]; exact hd), hoffstep]
                  dsimp only
                  rw [show roomSub none out.length = none from rfl, hoffrec]
                refine ⟨?_, ?_, ?_⟩
                · intro e1' c1' o1' hres
                  rw [← h2] at hres
                  injection hres with hr3
                  injection hr3 with hr4 hr5
                  injection hr5 with hr6 hr7
                  exact ⟨e2', c2', by rw [hoff, hr7]⟩
                · intro err hres herrne
                  rw [← h2] at hres
                  simp at hres
                · intro hres
                  rw [← h2] at hres
                  simp at hres
        | needInput =>
          dsimp only at h
          have hoffstep : step litW distW (stripEngine ad e) none = some .needInput := by
            rw [step_strip litW distW ad e hv hph, hstep]
            rfl
          cases a with
          | cons x a' =>
            dsimp only at h
            cases hrec : runLoop litW distW f
                { e with bitbuf := e.bitbuf ++ byteBits x } a' none true with
            | none => rw [hrec] at h; cases h
            | some r1 =>
              rw [hrec] at h
              have hv1 : ({ e with bitbuf := e.bitbuf ++ byteBits x } : Engine).verifyChecksum =
                  true := hv
              have hph1 : ({ e with bitbuf := e.bitbuf ++ byteBits x } : Engine).phase ≠
                  Phase.checkTrailer := hph
              obtain ⟨hok, herr, hm2⟩ :=
                ih { e with bitbuf := e.bitbuf ++ byteBits x } ad a' r1 hrec hv1 hph1
              have hengeq : ({ stripEngine ad e with
                  bitbuf := (stripEngine ad e).bitbuf ++ byteBits x } : Engine) =
                  stripEngine ad { e with bitbuf := e.bitbuf ++ byteBits x } := rfl
              cases r1 with
              | error err2 =>
                dsimp only at h
                injection h with h2
                by_cases herrm : err2 = DecompressionError.ChecksumMismatch
                · subst herrm
                  obtain ⟨e2', c2', o2', hoffrec⟩ := hm2 rfl
                  have hoff : runLoop litW distW (f + 1) (stripEngine ad e) (x :: a')
                      none true = some (Except.ok (e2', c2' + 1, o2')) := by
                    rw [runLoop]
                    unfold runBody
                    rw [if_neg (by rw [hphs]; exact hd), hoffstep]
                    dsimp only
                    rw [hengeq, hoffrec]
                  refine ⟨?_, ?_, ?_⟩
                  · intro e1' c1' o1' hres
                    rw [← h2] at hres
                    simp at hres
                  · intro err hres herrne
                    rw [← h2] at hres
                    injection hres with hr3
                    exact absurd hr3.symm herrne
                  · intro hres
                    exact ⟨e2', c2' + 1, o2', hoff⟩
                · have hoffrec := herr err2 rfl herrm
                  have hoff : runLoop litW distW (f + 1) (stripEngine ad e) (x :: a')
                      none true = some (Except.error err2) := by
                    rw [runLoop]
                    unfold runBody
                    rw [if_neg (by rw [hphs]; exact hd), hoffstep]
                    dsimp only
                    rw [hengeq, hoffrec]
                  refine ⟨?_, ?_, ?_⟩
                  · intro e1' c1' o1' hres
                    rw [← h2] at hres
                    simp at hres
                  · intro err hres herrne
                    rw [← h2] at hres
                    injection hres with hr3
                    rw [hoff, hr3]
                  · intro hres
                    rw [← h2] at hres
                    injection hres with hr3
                    exact absurd hr3 herrm
              | ok v =>
                obtain ⟨e2, c2, o2⟩ := v
                dsimp only at h
                injection h with h2
                obtain ⟨e2', c2', hoffrec⟩ := hok e2 c2 o2 rfl
                have hoff : runLoop litW distW (f + 1) (stripEngine ad e) (x :: a')
                    none true = some (Except.ok (e2', c2' + 1, o2)) := by
                  rw [runLoop]
                  unfold runBody
                  rw [if_neg (by rw [hphs]; exact hd), hoffstep]
                  dsimp only
                  rw [hengeq, hoffrec]
                refine ⟨?_, ?_, ?_⟩
                · intro e1' c1' o1' hres
                  rw [← h2] at hres
                  injection hres with hr3
                  injection hr3 with hr4 hr5
                  injection hr5 with hr6 hr7
                  exact ⟨e2', c2' + 1, by rw [hoff, hr7]⟩
                · intro err hres herrne
                  rw [← h2] at hres
                  simp at hres
                · intro hres
                  rw [← h2] at hres
                  simp at hres
          | nil =>
            rw [if_pos rfl, if_neg hph] at h
            injection h with h2
            have hoff : runLoop litW distW (f + 1) (stripEngine ad e) [] none true =
                some (Except.error .TruncatedInput) := by
              rw [runLoop]
              unfold runBody
              rw [if_neg (by rw [hphs]; exact hd), hoffstep]
              dsimp only
              rw [if_pos rfl, if_neg (by rw [hphs]; exact hph)]
            refine ⟨?_, ?_, ?_⟩
            · intro e1' c1' o1' hres
              rw [← h2] at hres
              simp at hres
            · intro err hres herrne
              rw [← h2] at hres
              injection hres with hr3
              rw [hoff, hr3]
            · intro hres
              rw [← h2] at hres
              injection hres with hr3
              simp at hr3

/-- **C6**: decoding with checksum verification disabled produces exactly
the same decompressed bytes as decoding with it enabled; disabling it can
only remove checksum-mismatch errors (in which case decoding succeeds),
never change any decoded byte or any other error. -/
theorem claim_C6_checksum_transparency (litW distW : Nat) (input : List Nat) :
    (∀ o, inflateCore litW distW true input = some (Except.ok o) →
      inflateCore litW distW false input = some (Except.ok o)) ∧
    (∀ err, err ≠ DecompressionError.ChecksumMismatch →
      inflateCore litW distW true input = some (Except.error err) →
      inflateCore litW distW false input = some (Except.error err)) ∧
    (inflateCore litW distW true input = some (Except.error .ChecksumMismatch) →
      ∃ o, inflateCore litW distW false input = some (Except.ok o)) := by
  have hstrip : initEngine false = stripEngine (1, 0) (initEngine true) := rfl
  have hfe : fuelFor (stripEngine (1, 0) (initEngine true)) input =
      fuelFor (initEngine true) input := rfl
  refine ⟨?_, ?_, ?_⟩
  · intro o hok
    unfold inflateCore readEngine at hok ⊢
    cases hc : runLoop litW distW (fuelFor (initEngine true) input) (initEngine true) input
        none true with
    | none => rw [hc] at hok; cases hok
    | some r =>
      rw [hc] at hok
      cases r with
      | error err => simp at hok
      | ok v =>
        obtain ⟨e1, c1, o1⟩ := v
        dsimp only at hok
        injection hok with hok2
        injection hok2 with hok3
        obtain ⟨hK, _, _⟩ := runLoop_strip litW distW (fuelFor (initEngine true) input)
          (initEngine true) (1, 0) input _ hc rfl (by simp [initEngine])
        obtain ⟨e2, c2, hoff⟩ := hK e1 c1 o1 rfl
        rw [hstrip, hfe, hoff]
        dsimp only
        rw [hok3]
  · intro err herrne hok
    unfold inflateCore readEngine at hok ⊢
    cases hc : runLoop litW distW (fuelFor (initEngine true) input) (initEngine true) input
        none true with
    | none => rw [hc] at hok; cases hok
    | some r =>
      rw [hc] at hok
      cases r with
      | ok v => obtain ⟨e1, c1, o1⟩ := v; simp at hok
      | error err2 =>
        dsimp only at hok
        injection hok with hok2
        injection hok2 with hok3
        subst hok3
        obtain ⟨_, hE, _⟩ := runLoop_strip litW distW (fuelFor (initEngine true) input)
          (initEngine true) (1, 0) input _ hc rfl (by simp [initEngine])
        have hoff := hE err2 rfl herrne
        rw [hstrip, hfe, hoff]
  · intro hmis
    unfold inflateCore readEngine at hmis ⊢
    cases hc : runLoop litW distW (fuelFor (initEngine true) input) (initEngine true) input
        none true with
    | none => rw [hc] at hmis; cases hmis
    | some r =>
      rw [hc] at hmis
      cases r with
      | ok v => obtain ⟨e1, c1, o1⟩ := v; simp at hmis
      | error err2 =>
        dsimp only at hmis
        injection hmis with hmis2
        injection hmis2 with hmis3
        subst hmis3
        obtain ⟨_, _, hM⟩ := runLoop_strip litW distW (fuelFor (initEngine true) input)
          (initEngine true) (1, 0) input _ hc rfl (by simp [initEngine])
        obtain ⟨e2, c2, o2, hoff⟩ := hM rfl
        refine ⟨o2, ?_⟩
        rw [hstrip, hfe, hoff]

theorem claim_C6_witness :
    DecompressionError.TruncatedInput ≠ DecompressionError.ChecksumMismatch ∧
    inflateCore 12 9 true [] = some (Except.error .TruncatedInput) ∧
    inflateCore 12 9 false [] = some (Except.error .TruncatedInput) :=
  ⟨by decide, rfl,
    (claim_C6_checksum_transparency 12 9 []).2.1 DecompressionError.TruncatedInput
      (by decide) rfl⟩
